import Mathlib

/-!
# Tic-tac-toe (`ConsoleApplication3.cpp`): board, robot strategies and game loop

A shallow embedding of the C++ program.  `char` cells are `Char`; `int` values are `Int`,
and the three arithmetic results of `minimax` (`10 - depth`, `depth - 10`, `depth + 1`) are
reduced to the 32-bit range by `wrapInt32`; the `std::mt19937` generator is the stream of numbers in
`0..8` that `dist(rng)` will deliver, and every loop that the C++ leaves unbounded
(recursion of `minimax`, the `do … while` of the random move, the loop of
`Game::play`) takes a fuel argument and answers `none` / `outOfFuel` when it runs out.
-/

namespace TicTacToe

/-! ## Board -/

/-- The class `Board`: `char board[3][3]`. -/
structure Board where
  board : Fin 3 → Fin 3 → Char

/-- The three values taken by the loop counters `i`, `j` of the 3-step loops. -/
def idx3 : List (Fin 3) := [0, 1, 2]

/-- The nine values taken by the loop counter of `for (int i = 0; i < 9; i++)`. -/
def idx9 : List (Fin 9) := [0, 1, 2, 3, 4, 5, 6, 7, 8]

/-- Row `i / 3` of cell index `i`. -/
def cellRow (i : Fin 9) : Fin 3 := ⟨i.val / 3, by omega⟩

/-- Column `i % 3` of cell index `i`. -/
def cellCol (i : Fin 9) : Fin 3 := ⟨i.val % 3, by omega⟩

namespace Board

/-- The initial value of `board`: nine blanks. -/
def empty : Board := ⟨fun _ _ => ' '⟩

/-- The read `board.board[i / 3][i % 3]`. -/
def cell (b : Board) (i : Fin 9) : Char := b.board (cellRow i) (cellCol i)

/-- The assignment `board[r][c] = v`. -/
def set (b : Board) (r c : Fin 3) (v : Char) : Board :=
  ⟨fun r' c' => if r' = r ∧ c' = c then v else b.board r' c'⟩

/-- The assignment `board.board[i / 3][i % 3] = v`. -/
def put (b : Board) (i : Fin 9) (v : Char) : Board := b.set (cellRow i) (cellCol i) v

/-- `Board::isFull`: the nested loops answer `false` at the first blank cell. -/
def isFull (b : Board) : Bool :=
  idx3.all fun i => idx3.all fun j => !(b.board i j == ' ')

/-- `Board::checkWin`: row `i` and column `i` for `i = 0, 1, 2`, then the two diagonals. -/
def checkWin (b : Board) (symbol : Char) : Bool :=
  (idx3.any fun i =>
    (b.board i 0 == symbol && b.board i 1 == symbol && b.board i 2 == symbol) ||
    (b.board 0 i == symbol && b.board 1 i == symbol && b.board 2 i == symbol)) ||
  (b.board 0 0 == symbol && b.board 1 1 == symbol && b.board 2 2 == symbol) ||
  (b.board 0 2 == symbol && b.board 1 1 == symbol && b.board 2 0 == symbol)

/-- The access `board[r][c]` with `int` indices: defined only inside the array. -/
def at? (b : Board) (r c : Int) : Option Char :=
  if 0 ≤ r ∧ r < 3 ∧ 0 ≤ c ∧ c < 3 then some (b.board (Fin.ofNat r.toNat) (Fin.ofNat c.toNat))
  else none

/-- The write `board[r][c] = v` with `int` indices: defined only inside the array. -/
def write? (b : Board) (r c : Int) (v : Char) : Option Board :=
  if 0 ≤ r ∧ r < 3 ∧ 0 ≤ c ∧ c < 3 then some (b.set (Fin.ofNat r.toNat) (Fin.ofNat c.toNat) v)
  else none

end Board

/-! ## Robot -/

/-- The enumeration `Robot::Difficulty`. -/
inductive Difficulty where
  | EASY
  | MEDIUM
  | HARD
deriving DecidableEq, Repr

/-- The constant `std::numeric_limits<int>::max()`. -/
def INT_MAX : Int := 2147483647

/-- The constant `std::numeric_limits<int>::min()`. -/
def INT_MIN : Int := -2147483648

/-- The 32-bit `int` that holds the arithmetic result `x`: `x` itself when it fits, and the
two's-complement wrap-around (what the compiled program computes) when it overflows. -/
def wrapInt32 (x : Int) : Int := (x + 2147483648) % 4294967296 - 2147483648

/-- The expression `symbol == 'X' ? 'O' : 'X'`. -/
def opponent (symbol : Char) : Char := if symbol == 'X' then 'O' else 'X'

/-- The loop `do { move = dist(rng); } while (board[move / 3][move % 3] != ' ')`: `k` is the
number of draws already taken from the generator. -/
def randomMove (rng : Nat → Fin 9) (board : Board) : Nat → Nat → Option Int
  | 0, _ => none
  | fuel + 1, k =>
    if board.cell (rng k) != ' ' then randomMove rng board fuel (k + 1)
    else some ((rng k).val : Int)

/-- The count of `symbol` in the three cells `line 0`, `line 1`, `line 2`. -/
def countIn (board : Board) (symbol : Char) (line : Fin 3 → Fin 3 × Fin 3) : Nat :=
  (idx3.filter fun k => board.board (line k).1 (line k).2 == symbol).length

/-- `Robot::hasTwoInARow`: rows, columns, main diagonal, anti-diagonal; a line counts as soon
as exactly two of its cells hold `symbol`. -/
def hasTwoInARow (board : Board) (symbol : Char) : Bool :=
  (idx3.any fun i => countIn board symbol (fun j => (i, j)) == 2) ||
  (idx3.any fun j => countIn board symbol (fun i => (i, j)) == 2) ||
  (countIn board symbol (fun i => (i, i)) == 2) ||
  (countIn board symbol (fun i => (i, 2 - i)) == 2)

/-- One of the four scans of `mediumMove`: the first `i` in `0..8` whose cell is blank and
for which the copy with `mark` written at `i` passes `test`. -/
def scan (board : Board) (mark : Char) (test : Board → Bool) : Option (Fin 9) :=
  idx9.find? fun i => board.cell i == ' ' && test (board.put i mark)

/-- `Robot::mediumMove`. -/
def mediumMove (symbol : Char) (rng : Nat → Fin 9) (fuel : Nat) (board : Board) : Option Int :=
  let opponentSymbol := opponent symbol
  match scan board symbol (fun newBoard => newBoard.checkWin symbol) with
  | some i => some (i.val : Int)
  | none =>
  match scan board opponentSymbol (fun newBoard => newBoard.checkWin opponentSymbol) with
  | some i => some (i.val : Int)
  | none =>
  match scan board symbol (fun newBoard => hasTwoInARow newBoard symbol) with
  | some i => some (i.val : Int)
  | none =>
  match scan board opponentSymbol (fun newBoard => hasTwoInARow newBoard opponentSymbol) with
  | some i => some (i.val : Int)
  | none => randomMove rng board fuel 0

/-- The `for` loop of the maximizing branch of `minimax`, from the cells still to visit:
`child` is the recursive call `minimax(board, depth + 1, false, alpha, beta)`. -/
def maxLoop (child : Board → Int → Int → Option Int) (symbol : Char) :
    List (Fin 9) → Board → Int → Int → Int → Option Int
  | [], _, maxEval, _, _ => some maxEval
  | i :: rest, board, maxEval, alpha, beta =>
    if board.cell i == ' ' then
      match child (board.put i symbol) alpha beta with
      | none => none
      | some v =>
        let maxEval1 := max maxEval v
        let board1 := (board.put i symbol).put i ' '
        let alpha1 := max alpha maxEval1
        if beta ≤ alpha1 then some maxEval1
        else maxLoop child symbol rest board1 maxEval1 alpha1 beta
    else maxLoop child symbol rest board maxEval alpha beta

/-- The `for` loop of the minimizing branch of `minimax`: `child` is the recursive call
`minimax(board, depth + 1, true, alpha, beta)`. -/
def minLoop (child : Board → Int → Int → Option Int) (symbol : Char) :
    List (Fin 9) → Board → Int → Int → Int → Option Int
  | [], _, minEval, _, _ => some minEval
  | i :: rest, board, minEval, alpha, beta =>
    if board.cell i == ' ' then
      match child (board.put i (opponent symbol)) alpha beta with
      | none => none
      | some v =>
        let minEval1 := min minEval v
        let board1 := (board.put i (opponent symbol)).put i ' '
        let beta1 := min beta minEval1
        if beta1 ≤ alpha then some minEval1
        else minLoop child symbol rest board1 minEval1 alpha beta1
    else minLoop child symbol rest board minEval alpha beta

/-- `Robot::minimax` of the robot playing `symbol`; `fuel` bounds the nesting of the calls. -/
def minimax (symbol : Char) : Nat → Board → Int → Bool → Int → Int → Option Int
  | 0, _, _, _, _, _ => none
  | fuel + 1, board, depth, maximizingPlayer, alpha, beta =>
    if board.checkWin symbol then some (wrapInt32 (10 - depth))
    else if board.checkWin (opponent symbol) then some (wrapInt32 (depth - 10))
    else if board.isFull then some 0
    else if maximizingPlayer then
      maxLoop (fun b a be => minimax symbol fuel b (wrapInt32 (depth + 1)) false a be) symbol
        idx9 board (-INT_MAX) alpha beta
    else
      minLoop (fun b a be => minimax symbol fuel b (wrapInt32 (depth + 1)) true a be) symbol
        idx9 board INT_MAX alpha beta

/-- The class `Robot`: its mark, its difficulty and the numbers its generator will draw. -/
structure Robot where
  symbol : Char
  difficulty : Difficulty
  rng : Nat → Fin 9

/-- `Robot::makeMove`. -/
def Robot.makeMove (r : Robot) (fuel : Nat) (board : Board) : Option Int :=
  match r.difficulty with
  | .EASY => randomMove r.rng board fuel 0
  | .MEDIUM => mediumMove r.symbol r.rng fuel board
  | .HARD => minimax r.symbol fuel board 0 true (-INT_MAX) INT_MAX

/-! ## Game -/

/-- How a bounded run of the loop of `Game::play` ends. -/
inductive PlayResult where
  | finished (board : Board)
  | outOfFuel
  | noMove
  | outOfBounds

/-- The `while` loop of `Game::play`, for at most `fuel` iterations: `player1` and `player2`
are the `makeMove` of the two players. -/
def play (player1 player2 : Board → Option Int) : Nat → Board → Int → PlayResult
  | 0, _, _ => .outOfFuel
  | fuel + 1, board, currentPlayer =>
    if !board.isFull && !board.checkWin 'X' && !board.checkWin 'O' then
      match (if currentPlayer = 0 then player1 else player2) board with
      | none => .noMove
      | some move =>
        match board.write? (move.tdiv 3) (move.tmod 3) (if currentPlayer = 0 then 'X' else 'O') with
        | none => .outOfBounds
        | some board1 => play player1 player2 fuel board1 (1 - currentPlayer)
    else .finished board

/-- `HumanPlayer::makeMove`: the input is the sequence of pairs of numbers typed for
`std::cin >> row >> col`. A number that does not fit in a 32-bit `int` puts the stream in the
failed state: nothing is read any more, `row`, `col` keep an out-of-range value and the loop
never leaves (`none`), as when the input ends. The test `board.board[row][col] != ' '` is
reached only when both numbers are in `0..2`. -/
def HumanPlayer.makeMove (board : Board) : List (Int × Int) → Option Int
  | [] => none
  | (row, col) :: rest =>
    if row < INT_MIN ∨ INT_MAX < row ∨ col < INT_MIN ∨ INT_MAX < col then none
    else if row < 0 ∨ row > 2 ∨ col < 0 ∨ col > 2 then HumanPlayer.makeMove board rest
    else if board.board (Fin.ofNat row.toNat) (Fin.ofNat col.toNat) != ' ' then
      HumanPlayer.makeMove board rest
    else some (row * 3 + col)

/-! ## Vocabulary of the statements -/

/-- The eight lines of the grid: rows 0..2, columns 0..2, the main diagonal and the
anti-diagonal, each as its three (row, column) positions. -/
def allLines : List (Fin 3 → Fin 3 × Fin 3) :=
  [fun j => (0, j), fun j => (1, j), fun j => (2, j),
   fun i => (i, 0), fun i => (i, 1), fun i => (i, 2),
   fun i => (i, i), fun i => (i, 2 - i)]

/-- The number of cells of a board that hold `s`. -/
def markCount (b : Board) (s : Char) : Nat :=
  Finset.univ.sum fun i : Fin 9 => if b.cell i = s then 1 else 0

/-- The number of blank cells of a board. -/
def emptyCount (b : Board) : Nat := markCount b ' '

/-- Both numbers of the pair fit in a 32-bit `int`, so `std::cin` reads them. -/
def fitsInt (p : Int × Int) : Prop :=
  INT_MIN ≤ p.1 ∧ p.1 ≤ INT_MAX ∧ INT_MIN ≤ p.2 ∧ p.2 ≤ INT_MAX

instance (p : Int × Int) : Decidable (fitsInt p) := by
  unfold fitsInt
  infer_instance

/-- The position `(row, col)` is legal for `HumanPlayer::makeMove`: both numbers are in
`0..2` and the cell is blank. -/
def legalInput (board : Board) (p : Int × Int) : Prop :=
  0 ≤ p.1 ∧ p.1 ≤ 2 ∧ 0 ≤ p.2 ∧ p.2 ≤ 2 ∧ board.at? p.1 p.2 = some ' '

instance (board : Board) (p : Int × Int) : Decidable (legalInput board p) := by
  unfold legalInput
  infer_instance

/-- The four rules of `mediumMove`, numbered from 0: cell `i` is blank and (0) the robot's
mark there gives the robot a line, (1) the opponent's mark there gives the opponent a line,
(2) the robot's mark there makes `hasTwoInARow` true for the robot, (3) the opponent's mark
there makes `hasTwoInARow` true for the opponent. -/
def ruleHolds (symbol : Char) (board : Board) (r : Fin 4) (i : Fin 9) : Bool :=
  board.cell i == ' ' &&
    match r with
    | 0 => (board.put i symbol).checkWin symbol
    | 1 => (board.put i (opponent symbol)).checkWin (opponent symbol)
    | 2 => hasTwoInARow (board.put i symbol) symbol
    | 3 => hasTwoInARow (board.put i (opponent symbol)) (opponent symbol)

/-- The boards and turns that the loop of `Game::play` can reach from the empty board when
every move is the index of a blank cell: the loop condition holds before each move, player
0 writes X, player 1 writes O, and the turn passes to `1 - currentPlayer`. -/
inductive Reachable : Board → Int → Prop where
  | start : Reachable Board.empty 0
  | move (b : Board) (currentPlayer : Int) (i : Fin 9) :
      Reachable b currentPlayer →
      (!b.isFull && !b.checkWin 'X' && !b.checkWin 'O') = true →
      b.cell i = ' ' →
      Reachable (b.put i (if currentPlayer = 0 then 'X' else 'O')) (1 - currentPlayer)

/-- Every cell is a blank, an X or an O. -/
def WellFormed (b : Board) : Prop :=
  ∀ r c, b.board r c = ' ' ∨ b.board r c = 'X' ∨ b.board r c = 'O'

instance (b : Board) : Decidable (WellFormed b) := by
  unfold WellFormed
  infer_instance

/-- The board `X|X|_ / O|O|_ / _|_|_`. -/
def boardXXOO : Board :=
  (((Board.empty.put 0 'X').put 1 'X').put 3 'O').put 4 'O'

/-- The board `X|O|X / O|X|_ / _|_|_`. -/
def boardFork : Board :=
  ((((Board.empty.put 0 'X').put 1 'O').put 2 'X').put 3 'O').put 4 'X'

/-- The board `X|X|O / _|_|_ / _|_|_`. -/
def boardXXO : Board := ((Board.empty.put 0 'X').put 1 'X').put 2 'O'

/-- The full board `X|O|X / X|O|O / O|X|X`, on which no mark has a line. -/
def boardDraw : Board :=
  ⟨fun r c => if (r = 0 ∧ c = 1) ∨ (r = 1 ∧ c = 1) ∨ (r = 1 ∧ c = 2) ∨ (r = 2 ∧ c = 0)
    then 'O' else 'X'⟩

/-- The board `X|X|X / O|O|_ / _|_|_`. -/
def boardXWon : Board := boardXXOO.put 2 'X'

/-- The board with an O in the centre and eight blanks. -/
def boardCentreO : Board := Board.empty.put 4 'O'

/-- The board after X has opened in the centre, written as the game loop writes it. -/
def boardCentreX : Board := Board.empty.put 4 (if (0 : Int) = 0 then 'X' else 'O')

/-- The board `_|_|_ / X|_|X / O|X|O`. -/
def boardLate : Board :=
  ((((Board.empty.put 3 'X').put 5 'X').put 6 'O').put 7 'X').put 8 'O'

/-! ## Plain minimax (the unpruned recursion the pruned search is compared with) -/

/-- The maximizing step of plain minimax: every blank cell is tried, the robot's mark is
placed on a copy, and the maximum of the values is kept. -/
def plainMaxLoop (child : Board → Option Int) (symbol : Char) :
    List (Fin 9) → Board → Int → Option Int
  | [], _, maxEval => some maxEval
  | i :: rest, board, maxEval =>
    if board.cell i == ' ' then
      match child (board.put i symbol) with
      | none => none
      | some v => plainMaxLoop child symbol rest board (max maxEval v)
    else plainMaxLoop child symbol rest board maxEval

/-- The minimizing step of plain minimax: every blank cell is tried with the opponent's mark
and the minimum of the values is kept. -/
def plainMinLoop (child : Board → Option Int) (symbol : Char) :
    List (Fin 9) → Board → Int → Option Int
  | [], _, minEval => some minEval
  | i :: rest, board, minEval =>
    if board.cell i == ' ' then
      match child (board.put i (opponent symbol)) with
      | none => none
      | some v => plainMinLoop child symbol rest board (min minEval v)
    else plainMinLoop child symbol rest board minEval

/-- Plain minimax: the terminal scoring of `minimax`, and at every other node the maximum
(robot to move) or minimum (opponent to move) over all blank cells, with no window. -/
def plainMinimax (symbol : Char) : Nat → Board → Int → Bool → Option Int
  | 0, _, _, _ => none
  | fuel + 1, board, depth, maximizingPlayer =>
    if board.checkWin symbol then some (wrapInt32 (10 - depth))
    else if board.checkWin (opponent symbol) then some (wrapInt32 (depth - 10))
    else if board.isFull then some 0
    else if maximizingPlayer then
      plainMaxLoop (fun b => plainMinimax symbol fuel b (wrapInt32 (depth + 1)) false) symbol
        idx9 board (-INT_MAX)
    else
      plainMinLoop (fun b => plainMinimax symbol fuel b (wrapInt32 (depth + 1)) true) symbol
        idx9 board INT_MAX

/-- What a search with window `(alpha, beta)` that returned `v` knows about the plain value
`p`: equal inside the window, an upper bound at or below `alpha`, a lower bound at or above
`beta`. -/
def WindowRel (alpha beta v p : Int) : Prop :=
  (alpha < v ∧ v < beta ∧ v = p) ∨ (v ≤ alpha ∧ p ≤ v) ∨ (beta ≤ v ∧ v ≤ p)

/-! ## Strategy certificates

A position's plain minimax value is bounded from below by a strategy of the robot and from
above by a strategy of the opponent. A certificate lists the strategy's moves in the order
in which the checker visits the positions. -/

/-- The terminal scoring of `minimax`, or `none` at a position where the search goes on. -/
def terminalValue? (symbol : Char) (b : Board) (depth : Int) : Option Int :=
  if b.checkWin symbol then some (wrapInt32 (10 - depth))
  else if b.checkWin (opponent symbol) then some (wrapInt32 (depth - 10))
  else if b.isFull then some 0
  else none

/-- Runs `next` on the board with `mark` written into each blank cell in turn, threading the
rest of the certificate. -/
def certAll (next : Board → List (Fin 9) → Option (List (Fin 9))) (mark : Char) :
    List (Fin 9) → Board → List (Fin 9) → Option (List (Fin 9))
  | [], _, cert => some cert
  | j :: rest, b, cert =>
    if b.cell j == ' ' then
      match next (b.put j mark) cert with
      | none => none
      | some c => certAll next mark rest b c
    else certAll next mark rest b cert

/-- Checks that the robot, to move at `depth`, can reach at least `bound`: the certificate
gives the robot's move, and every reply of the opponent is checked in turn. -/
def certLower (symbol : Char) (bound : Int) :
    Nat → Board → Int → List (Fin 9) → Option (List (Fin 9))
  | 0, _, _, _ => none
  | fuel + 1, b, depth, cert =>
    match terminalValue? symbol b depth with
    | some t => if bound ≤ t then some cert else none
    | none =>
      match cert with
      | [] => none
      | mv :: c =>
        if b.cell mv == ' ' then
          match terminalValue? symbol (b.put mv symbol) (wrapInt32 (depth + 1)) with
          | some t => if bound ≤ t then some c else none
          | none =>
            certAll (fun b2 c2 => certLower symbol bound fuel b2 (wrapInt32 (wrapInt32 (depth + 1) + 1)) c2)
              (opponent symbol) idx9 (b.put mv symbol) c
        else none

/-- Checks that the robot, to move at `depth`, cannot reach more than `bound`: every move of
the robot is answered by the opponent's reply given in the certificate. -/
def certUpper (symbol : Char) (bound : Int) :
    Nat → Board → Int → List (Fin 9) → Option (List (Fin 9))
  | 0, _, _, _ => none
  | fuel + 1, b, depth, cert =>
    match terminalValue? symbol b depth with
    | some t => if t ≤ bound then some cert else none
    | none =>
      certAll (fun b1 c1 =>
          match terminalValue? symbol b1 (wrapInt32 (depth + 1)) with
          | some t => if t ≤ bound then some c1 else none
          | none =>
            match c1 with
            | [] => none
            | j :: c =>
              if b1.cell j == ' ' then
                certUpper symbol bound fuel (b1.put j (opponent symbol))
                  (wrapInt32 (wrapInt32 (depth + 1) + 1)) c
              else none)
        symbol idx9 b cert

/-- The board after `Game::play` has written X into cell `(0, 0)` of the empty board. -/
def boardCornerX : Board := Board.empty.put 0 'X'

/-- The board with O in cell `(0, 0)` and eight blanks. -/
def boardCornerO : Board := Board.empty.put 0 'O'

/-- The first player's moves that hold the draw from the empty board. -/
def certEmptyLower : List (Fin 9) :=
  [0, 3, 6, 6, 6, 4, 5, 8, 5, 5, 6, 6, 3, 6, 6, 6, 4, 5, 8, 5, 5, 6, 6, 1, 4, 7, 7, 8, 7, 2, 2,
   2, 2, 2, 1, 6, 5, 8, 7, 3, 3, 3, 2, 2, 2, 2, 2, 2, 4, 6, 8, 6, 6, 1, 1, 1, 1, 1, 1, 4, 7, 7,
   8, 7, 2, 2, 2, 2, 2, 2, 4, 6, 6, 8, 6, 1, 1, 1, 1, 1, 2, 6, 4, 3, 3, 3, 1, 1, 1, 1, 1]

/-- The second player's replies that hold the draw from the empty board. -/
def certEmptyUpper : List (Fin 9) :=
  [4, 2, 6, 6, 3, 7, 5, 5, 6, 6, 1, 7, 7, 7, 3, 8, 5, 5, 7, 6, 2, 1, 7, 5, 7, 2, 2, 2, 1, 7, 7,
   7, 6, 8, 2, 2, 7, 3, 5, 5, 1, 7, 8, 7, 5, 5, 3, 5, 5, 2, 6, 8, 6, 5, 5, 1, 7, 7, 7, 7, 6, 5,
   2, 2, 4, 2, 6, 6, 3, 7, 5, 5, 6, 6, 0, 8, 8, 8, 8, 5, 6, 3, 3, 0, 8, 8, 8, 8, 2, 6, 7, 6, 0,
   8, 8, 8, 8, 2, 6, 7, 6, 3, 5, 5, 8, 2, 0, 0, 5, 5, 0, 8, 8, 8, 8, 6, 3, 2, 2, 3, 5, 5, 2, 6,
   7, 6, 5, 5, 4, 1, 7, 7, 7, 3, 8, 5, 5, 7, 0, 8, 8, 8, 8, 5, 6, 3, 3, 1, 7, 7, 7, 8, 6, 0, 0,
   7, 8, 1, 7, 7, 3, 0, 0, 0, 0, 1, 7, 7, 7, 8, 3, 0, 0, 7, 3, 5, 5, 8, 1, 0, 0, 5, 5, 5, 3, 3,
   1, 7, 7, 6, 3, 3, 4, 6, 2, 1, 7, 5, 7, 2, 2, 2, 0, 8, 8, 8, 8, 2, 6, 7, 6, 1, 7, 7, 7, 8, 6,
   0, 0, 7, 0, 8, 8, 8, 8, 2, 6, 1, 1, 0, 8, 8, 8, 8, 7, 2, 1, 1, 0, 8, 8, 8, 8, 6, 2, 5, 2, 1,
   7, 7, 7, 7, 6, 2, 5, 2, 0, 7, 6, 8, 3, 3, 5, 6, 2, 2, 3, 6, 2, 6, 2, 5, 3, 3, 3, 6, 6, 2, 6,
   3, 5, 7, 1, 1, 3, 3, 3, 5, 7, 6, 2, 2, 6, 7, 1, 1, 2, 8, 1, 1, 1, 6, 2, 2, 1, 6, 2, 2, 3, 6,
   6, 2, 7, 1, 1, 6, 6, 2, 7, 5, 3, 3, 1, 1, 1, 1, 1, 6, 5, 3, 3, 2, 2, 2, 2, 2, 7, 5, 3, 3, 1,
   1, 1, 1, 4, 1, 7, 7, 7, 6, 8, 2, 2, 7, 0, 8, 8, 8, 8, 2, 6, 7, 6, 8, 1, 7, 7, 3, 0, 0, 0, 0,
   0, 8, 8, 8, 8, 2, 6, 1, 1, 1, 7, 7, 7, 8, 3, 0, 0, 7, 2, 6, 6, 6, 8, 3, 0, 0, 6, 2, 6, 6, 6,
   7, 1, 0, 1, 6, 4, 3, 5, 5, 1, 7, 8, 7, 5, 5, 3, 5, 5, 8, 2, 0, 0, 5, 5, 1, 7, 7, 7, 8, 3, 0,
   0, 7, 0, 8, 8, 8, 8, 7, 2, 1, 1, 1, 7, 7, 7, 8, 3, 0, 0, 7, 8, 3, 5, 5, 1, 0, 0, 0, 0, 7, 1,
   3, 5, 5, 2, 1, 1, 1, 4, 3, 5, 5, 2, 6, 8, 6, 5, 5, 0, 8, 8, 8, 8, 6, 3, 2, 2, 3, 5, 5, 8, 1,
   0, 0, 5, 5, 0, 8, 8, 8, 8, 6, 2, 5, 2, 2, 6, 6, 6, 8, 3, 0, 0, 6, 8, 3, 5, 5, 1, 0, 0, 0, 0,
   6, 2, 2, 5, 3, 3, 0, 2, 2, 4, 1, 7, 7, 7, 7, 6, 5, 2, 2, 3, 5, 5, 2, 6, 7, 6, 5, 5, 5, 3, 3,
   1, 7, 7, 6, 3, 3, 1, 7, 7, 7, 7, 6, 2, 5, 2, 2, 6, 6, 6, 7, 1, 0, 1, 6, 7, 1, 3, 5, 5, 2, 1,
   1, 1, 6, 2, 2, 5, 3, 3, 0, 2, 2]

/-- The moves of the player to move that hold the draw with the other mark in cell 0. -/
def certCornerLower : List (Fin 9) :=
  [4, 2, 6, 6, 3, 7, 5, 5, 6, 6, 1, 7, 7, 7, 3, 8, 5, 5, 7, 6, 2, 1, 7, 5, 7, 2, 2, 2, 1, 7, 7,
   7, 6, 8, 2, 2, 7, 3, 5, 5, 1, 7, 8, 7, 5, 5, 3, 5, 5, 2, 6, 8, 6, 5, 5, 1, 7, 7, 7, 7, 6, 5,
   2, 2]

/-- The replies of the player not to move that hold the draw with their mark in cell 0. -/
def certCornerUpper : List (Fin 9) :=
  [3, 6, 6, 6, 4, 5, 8, 5, 5, 6, 6, 3, 6, 6, 6, 4, 5, 8, 5, 5, 6, 6, 1, 4, 7, 7, 8, 7, 2, 2, 2,
   2, 2, 1, 6, 5, 8, 7, 3, 3, 3, 2, 2, 2, 2, 2, 2, 4, 6, 8, 6, 6, 1, 1, 1, 1, 1, 1, 4, 7, 7, 8,
   7, 2, 2, 2, 2, 2, 2, 4, 6, 6, 8, 6, 1, 1, 1, 1, 1, 2, 6, 4, 3, 3, 3, 1, 1, 1, 1, 1]

/-! ## Cells -/

theorem cell_index_inj : ∀ i j : Fin 9, cellRow j = cellRow i → cellCol j = cellCol i → j = i := by
  decide

theorem cell_index_surj : ∀ r c : Fin 3, ∃ i : Fin 9, cellRow i = r ∧ cellCol i = c := by
  decide

theorem mem_idx9 (i : Fin 9) : i ∈ idx9 := by
  revert i
  decide

theorem Board.ext_board {a b : Board} (h : ∀ r c, a.board r c = b.board r c) : a = b := by
  cases a; cases b
  congr
  funext r c
  exact h r c

theorem Board.ext_cell {a b : Board} (h : ∀ i, a.cell i = b.cell i) : a = b := by
  apply Board.ext_board
  intro r c
  obtain ⟨i, hr, hc⟩ := cell_index_surj r c
  have := h i
  simp only [Board.cell, hr, hc] at this
  exact this

theorem cell_put_same (b : Board) (i : Fin 9) (v : Char) : (b.put i v).cell i = v := by
  simp [Board.put, Board.cell, Board.set]

theorem cell_put_ne (b : Board) (i j : Fin 9) (v : Char) (h : j ≠ i) :
    (b.put i v).cell j = b.cell j := by
  simp only [Board.put, Board.cell, Board.set]
  split
  · rename_i hc
    exact absurd (cell_index_inj i j hc.1 hc.2) h
  · rfl

theorem put_undo (b : Board) (i : Fin 9) (v : Char) (h : b.cell i = ' ') :
    (b.put i v).put i ' ' = b := by
  apply Board.ext_cell
  intro j
  by_cases hj : j = i
  · subst hj
    rw [cell_put_same, h]
  · rw [cell_put_ne _ _ _ _ hj, cell_put_ne _ _ _ _ hj]

theorem forall_fin3 (P : Fin 3 → Prop) : (∀ k, P k) ↔ P 0 ∧ P 1 ∧ P 2 :=
  ⟨fun h => ⟨h 0, h 1, h 2⟩, fun ⟨a, b, c⟩ k => by fin_cases k <;> assumption⟩

theorem fin3_two_sub : ((2 : Fin 3) - 0 = 2) ∧ ((2 : Fin 3) - 1 = 1) ∧ ((2 : Fin 3) - 2 = 0) := by
  decide

theorem checkWin_iff_line (b : Board) (symbol : Char) :
    b.checkWin symbol = true ↔ ∃ l ∈ allLines, ∀ k, b.board (l k).1 (l k).2 = symbol := by
  simp only [Board.checkWin, idx3, allLines, List.any_cons, List.any_nil,
    Bool.or_eq_true, Bool.and_eq_true, beq_iff_eq, Bool.or_false, List.mem_cons,
    List.mem_singleton, exists_eq_or_imp, exists_eq_left,
    List.not_mem_nil, false_and, exists_false, or_false, forall_fin3,
    fin3_two_sub.1, fin3_two_sub.2.1, fin3_two_sub.2.2]
  simp only [and_assoc, or_assoc]
  constructor
  · rintro (h | h | h | h | h | h | h | h) <;> simp only [h, and_self, true_or, or_true]
  · rintro (h | h | h | h | h | h | h | h) <;> simp only [h, and_self, true_or, or_true]

theorem isFull_iff_no_blank (b : Board) :
    b.isFull = true ↔ ∀ r c : Fin 3, b.board r c ≠ ' ' := by
  simp only [Board.isFull, idx3]
  simp [Fin.forall_fin_succ]

/-! ## 32-bit arithmetic -/

theorem wrapInt32_of_fits (x : Int) (h1 : -2147483648 ≤ x) (h2 : x ≤ 2147483647) :
    wrapInt32 x = x := by
  unfold wrapInt32
  omega

/-! ## Evaluations -/

theorem minimax_boardXXOO : minimax 'X' 10 boardXXOO 0 true (-INT_MAX) INT_MAX = some 9 := by
  decide!

theorem minimax_boardFork : minimax 'O' 10 boardFork 0 true (-INT_MAX) INT_MAX = some (-8) := by
  decide!

/-! ## Claims -/

/-- C1: on `X|X|_ / O|O|_ / _|_|_` the HARD robot with mark X returns 9, the minimax score of
the position, and not the cell index 2 that completes the top row. -/
theorem hard_makeMove_returns_score (rng : Nat → Fin 9) :
    Robot.makeMove ⟨'X', Difficulty.HARD, rng⟩ 10 boardXXOO = some 9 ∧
    Robot.makeMove ⟨'X', Difficulty.HARD, rng⟩ 10 boardXXOO ≠ some 2 := by
  simp [Robot.makeMove, minimax_boardXXOO]

/-- C2: on `X|O|X / O|X|_ / _|_|_` (neither mark has a line, four blank cells) the HARD robot
with mark O returns -8, which is not in 0..8, and the write of the game loop with that value
leaves the array. -/
theorem hard_makeMove_out_of_range (rng : Nat → Fin 9) :
    (boardFork.checkWin 'X' = false ∧ boardFork.checkWin 'O' = false ∧
      boardFork.isFull = false) ∧
    Robot.makeMove ⟨'O', Difficulty.HARD, rng⟩ 10 boardFork = some (-8) ∧
    (boardFork.write? ((-8 : Int).tdiv 3) ((-8 : Int).tmod 3) 'O').isNone = true := by
  refine ⟨by decide, ?_, by decide⟩
  simp only [Robot.makeMove, minimax_boardFork]

/-- C6 (as stated, refuted): on `X|X|X / O|O|_ / _|_|_` at depth `INT_MIN` the X robot's
`10 - depth` overflows the 32-bit `int` and `minimax` returns -2147483638, not `10 - depth`. -/
theorem terminal_score_overflows :
    boardXWon.checkWin 'X' = true ∧
    minimax 'X' 1 boardXWon INT_MIN false 0 1 = some (-2147483638) ∧
    minimax 'X' 1 boardXWon INT_MIN false 0 1 ≠ some (10 - INT_MIN) := by
  decide

/-- C6 (amended): terminal scoring of `minimax`, for every board, flag, window and every depth
from -2147483637 to `INT_MAX` (so that `10 - depth` and `depth - 10` fit in an `int`):
`10 - depth` when the robot's mark has a line, otherwise `depth - 10` when the opponent's mark
has one, otherwise 0 when the board is full. -/
theorem minimax_terminal_scoring (symbol : Char) (fuel : Nat) (board : Board) (depth : Int)
    (hlo : -2147483637 ≤ depth) (hhi : depth ≤ INT_MAX)
    (maximizingPlayer : Bool) (alpha beta : Int) :
    (board.checkWin symbol = true →
      minimax symbol (fuel + 1) board depth maximizingPlayer alpha beta = some (10 - depth)) ∧
    (board.checkWin symbol = false → board.checkWin (opponent symbol) = true →
      minimax symbol (fuel + 1) board depth maximizingPlayer alpha beta = some (depth - 10)) ∧
    (board.checkWin symbol = false → board.checkWin (opponent symbol) = false →
      board.isFull = true →
      minimax symbol (fuel + 1) board depth maximizingPlayer alpha beta = some 0) := by
  simp only [INT_MAX] at hhi
  have e1 : wrapInt32 (10 - depth) = 10 - depth := wrapInt32_of_fits _ (by omega) (by omega)
  have e2 : wrapInt32 (depth - 10) = depth - 10 := wrapInt32_of_fits _ (by omega) (by omega)
  refine ⟨?_, ?_, ?_⟩
  · intro h
    simp [minimax, h, e1]
  · intro h1 h2
    simp [minimax, h1, h2, e2]
  · intro h1 h2 h3
    simp [minimax, h1, h2, h3]

theorem minimax_terminal_scoring_witness :
    minimax 'X' 1 boardXWon 3 false 0 1 = some (10 - 3) ∧
    minimax 'O' 1 boardXWon 3 true (-5) 5 = some (3 - 10) ∧
    minimax 'X' 1 boardDraw 9 true (-INT_MAX) INT_MAX = some 0 :=
  ⟨(minimax_terminal_scoring 'X' 0 boardXWon 3 (by decide) (by decide) false 0 1).1 (by decide),
   (minimax_terminal_scoring 'O' 0 boardXWon 3 (by decide) (by decide) true (-5) 5).2.1
     (by decide) (by decide),
   (minimax_terminal_scoring 'X' 0 boardDraw 9 (by decide) (by decide) true (-INT_MAX)
     INT_MAX).2.2 (by decide) (by decide) (by decide)⟩

/-- C8 (as stated, refuted): on `X|X|O / _|_|_ / _|_|_` the code answers true for X although no
line holds exactly two X and no O. -/
theorem hasTwoInARow_ignores_opponent :
    hasTwoInARow boardXXO 'X' = true ∧
    ¬ ∃ l ∈ allLines, countIn boardXXO 'X' l = 2 ∧ countIn boardXXO 'O' l = 0 := by
  decide

/-- C8 (amended): `hasTwoInARow board s` is true exactly when one of the eight lines holds
exactly two cells equal to `s`, whatever the third cell holds. -/
theorem hasTwoInARow_iff_line_count (board : Board) (s : Char) :
    hasTwoInARow board s = true ↔ ∃ l ∈ allLines, countIn board s l = 2 := by
  simp only [hasTwoInARow, idx3, allLines, List.any_cons, List.any_nil,
    Bool.or_eq_true, Bool.or_false, beq_iff_eq, List.mem_cons, List.mem_singleton,
    exists_eq_or_imp, exists_eq_left, List.not_mem_nil, false_and, exists_false, or_false,
    or_assoc]

/-- C10: `checkWin(symbol)` is true exactly when one of the eight lines has its three cells
equal to `symbol`. -/
theorem checkWin_iff_some_line_uniform (b : Board) (symbol : Char) :
    b.checkWin symbol = true ↔ ∃ l ∈ allLines, ∀ k, b.board (l k).1 (l k).2 = symbol :=
  checkWin_iff_line b symbol

/-- C15: `isFull()` is true exactly when none of the nine cells is a blank. -/
theorem isFull_iff_no_cell_blank (b : Board) :
    b.isFull = true ↔ ∀ r c : Fin 3, b.board r c ≠ ' ' :=
  isFull_iff_no_blank b

/-! ## Indices as `int` -/

theorem index_div_mod : ∀ i : Fin 9,
    ((i.val : Int).tdiv 3 = ((cellRow i).val : Int)) ∧
    ((i.val : Int).tmod 3 = ((cellCol i).val : Int)) := by
  decide

theorem fin3_ofNat_val (r : Fin 3) : (Fin.ofNat ((r.val : Int)).toNat : Fin 3) = r := by
  revert r
  decide

theorem at_index (b : Board) (i : Fin 9) :
    b.at? ((i.val : Int).tdiv 3) ((i.val : Int).tmod 3) = some (b.cell i) := by
  rw [(index_div_mod i).1, (index_div_mod i).2]
  have h1 : (0 : Int) ≤ (cellRow i).val ∧ ((cellRow i).val : Int) < 3 := by
    have := (cellRow i).isLt
    omega
  have h2 : (0 : Int) ≤ (cellCol i).val ∧ ((cellCol i).val : Int) < 3 := by
    have := (cellCol i).isLt
    omega
  simp only [Board.at?, h1.1, h1.2, h2.1, h2.2, and_self, if_true, fin3_ofNat_val, Board.cell]

theorem write_index (b : Board) (i : Fin 9) (v : Char) :
    b.write? ((i.val : Int).tdiv 3) ((i.val : Int).tmod 3) v = some (b.put i v) := by
  rw [(index_div_mod i).1, (index_div_mod i).2]
  have h1 : (0 : Int) ≤ (cellRow i).val ∧ ((cellRow i).val : Int) < 3 := by
    have := (cellRow i).isLt
    omega
  have h2 : (0 : Int) ≤ (cellCol i).val ∧ ((cellCol i).val : Int) < 3 := by
    have := (cellCol i).isLt
    omega
  simp only [Board.write?, h1.1, h1.2, h2.1, h2.2, and_self, if_true, fin3_ofNat_val, Board.put]

/-! ## Scans -/

theorem idx9_sorted : idx9.Pairwise (· < ·) := by decide

theorem find_idx9_some (p : Fin 9 → Bool) (i : Fin 9) (h : idx9.find? p = some i) :
    p i = true ∧ ∀ j, j < i → p j = false := by
  rw [List.find?_eq_some] at h
  obtain ⟨hp, as, bs, hl, has⟩ := h
  refine ⟨hp, fun j hj => ?_⟩
  have hmem : j ∈ as ++ i :: bs := hl ▸ mem_idx9 j
  have hs : (as ++ i :: bs).Pairwise (· < ·) := hl ▸ idx9_sorted
  rw [List.pairwise_append] at hs
  rcases List.mem_append.1 hmem with h1 | h1
  · have := has j h1
    simpa using this
  · rcases List.mem_cons.1 h1 with h2 | h2
    · exact absurd h2 (Fin.ne_of_lt hj)
    · have hlt := (List.pairwise_cons.1 hs.2.1).1 j h2
      exact absurd hj (not_lt.2 (le_of_lt hlt))

theorem find_idx9_none (p : Fin 9 → Bool) (h : idx9.find? p = none) (j : Fin 9) :
    p j = false := by
  rw [List.find?_eq_none] at h
  have := h j (mem_idx9 j)
  simpa using this

theorem randomMove_sound (rng : Nat → Fin 9) (board : Board) (fuel k : Nat) (m : Int)
    (h : randomMove rng board fuel k = some m) :
    ∃ i : Fin 9, m = (i.val : Int) ∧ board.cell i = ' ' := by
  induction fuel generalizing k with
  | zero => simp [randomMove] at h
  | succ n ih =>
    simp only [randomMove] at h
    split at h
    · exact ih _ h
    · rename_i hc
      refine ⟨rng k, ?_, ?_⟩
      · simpa using h.symm
      · simpa using hc

theorem scan_sound (board : Board) (mark : Char) (test : Board → Bool) (i : Fin 9)
    (h : scan board mark test = some i) : board.cell i = ' ' := by
  have := (find_idx9_some _ i h).1
  simp only [Bool.and_eq_true, beq_iff_eq] at this
  exact this.1

theorem mediumMove_sound (symbol : Char) (rng : Nat → Fin 9) (fuel : Nat) (board : Board)
    (m : Int) (h : mediumMove symbol rng fuel board = some m) :
    ∃ i : Fin 9, m = (i.val : Int) ∧ board.cell i = ' ' := by
  simp only [mediumMove] at h
  split at h
  · rename_i i hi
    exact ⟨i, by simpa using h.symm, scan_sound _ _ _ _ hi⟩
  · split at h
    · rename_i i hi
      exact ⟨i, by simpa using h.symm, scan_sound _ _ _ _ hi⟩
    · split at h
      · rename_i i hi
        exact ⟨i, by simpa using h.symm, scan_sound _ _ _ _ hi⟩
      · split at h
        · rename_i i hi
          exact ⟨i, by simpa using h.symm, scan_sound _ _ _ _ hi⟩
        · exact randomMove_sound _ _ _ _ _ h

/-- C9: whenever `makeMove` of an EASY or MEDIUM robot returns `m`, then `0 ≤ m ≤ 8` and the
cell `(m / 3, m % 3)` of the board is blank. -/
theorem easy_medium_move_legal (r : Robot) (fuel : Nat) (board : Board) (m : Int)
    (hd : r.difficulty = Difficulty.EASY ∨ r.difficulty = Difficulty.MEDIUM)
    (h : r.makeMove fuel board = some m) :
    0 ≤ m ∧ m ≤ 8 ∧ board.at? (m.tdiv 3) (m.tmod 3) = some ' ' := by
  have key : ∃ i : Fin 9, m = (i.val : Int) ∧ board.cell i = ' ' := by
    rcases hd with hd | hd
    · simp only [Robot.makeMove, hd] at h
      exact randomMove_sound _ _ _ _ _ h
    · simp only [Robot.makeMove, hd] at h
      exact mediumMove_sound _ _ _ _ _ h
  obtain ⟨i, rfl, hc⟩ := key
  have := i.isLt
  refine ⟨by omega, by omega, ?_⟩
  rw [at_index, hc]

theorem easy_medium_move_legal_witness :
    (0 : Int) ≤ 0 ∧ (0 : Int) ≤ 8 ∧
      boardCentreO.at? ((0 : Int).tdiv 3) ((0 : Int).tmod 3) = some ' ' :=
  easy_medium_move_legal ⟨'X', Difficulty.MEDIUM, fun _ => 4⟩ 1 boardCentreO 0
    (Or.inr rfl) (by decide)

/-- C7: if some blank cell satisfies one of the four rules, `mediumMove` returns the
lowest-index cell satisfying the lowest-numbered rule that any cell satisfies; in
particular, when a cell satisfies rule 0 (immediate win) the returned cell satisfies rule 0. -/
theorem mediumMove_rule_cascade (symbol : Char) (rng : Nat → Fin 9) (fuel : Nat)
    (board : Board) (h : ∃ r i, ruleHolds symbol board r i = true) :
    ∃ r i, mediumMove symbol rng fuel board = some (i.val : Int) ∧
      ruleHolds symbol board r i = true ∧
      (∀ r2, r2 < r → ∀ j, ruleHolds symbol board r2 j = false) ∧
      (∀ j, j < i → ruleHolds symbol board r j = false) ∧
      ((∃ j, ruleHolds symbol board 0 j = true) → r = 0) := by
  have h0 : ∀ i, scan board symbol (fun nb => nb.checkWin symbol) = some i →
      ruleHolds symbol board 0 i = true ∧ ∀ j, j < i → ruleHolds symbol board 0 j = false :=
    fun i hi => find_idx9_some _ i hi
  have h1 : ∀ i, scan board (opponent symbol) (fun nb => nb.checkWin (opponent symbol)) = some i →
      ruleHolds symbol board 1 i = true ∧ ∀ j, j < i → ruleHolds symbol board 1 j = false :=
    fun i hi => find_idx9_some _ i hi
  have h2 : ∀ i, scan board symbol (fun nb => hasTwoInARow nb symbol) = some i →
      ruleHolds symbol board 2 i = true ∧ ∀ j, j < i → ruleHolds symbol board 2 j = false :=
    fun i hi => find_idx9_some _ i hi
  have h3 : ∀ i, scan board (opponent symbol)
      (fun nb => hasTwoInARow nb (opponent symbol)) = some i →
      ruleHolds symbol board 3 i = true ∧ ∀ j, j < i → ruleHolds symbol board 3 j = false :=
    fun i hi => find_idx9_some _ i hi
  have n0 : scan board symbol (fun nb => nb.checkWin symbol) = none →
      ∀ j, ruleHolds symbol board 0 j = false := fun hn j => find_idx9_none _ hn j
  have n1 : scan board (opponent symbol) (fun nb => nb.checkWin (opponent symbol)) = none →
      ∀ j, ruleHolds symbol board 1 j = false := fun hn j => find_idx9_none _ hn j
  have n2 : scan board symbol (fun nb => hasTwoInARow nb symbol) = none →
      ∀ j, ruleHolds symbol board 2 j = false := fun hn j => find_idx9_none _ hn j
  have n3 : scan board (opponent symbol) (fun nb => hasTwoInARow nb (opponent symbol)) = none →
      ∀ j, ruleHolds symbol board 3 j = false := fun hn j => find_idx9_none _ hn j
  simp only [mediumMove]
  cases e0 : scan board symbol (fun nb => nb.checkWin symbol) with
  | some i =>
    refine ⟨0, i, rfl, (h0 i e0).1, ?_, (h0 i e0).2, fun _ => rfl⟩
    intro r2 hr2
    exact absurd hr2 (Fin.not_lt_zero r2)
  | none =>
    have k0 := n0 e0
    cases e1 : scan board (opponent symbol) (fun nb => nb.checkWin (opponent symbol)) with
    | some i =>
      refine ⟨1, i, rfl, (h1 i e1).1, ?_, (h1 i e1).2, ?_⟩
      · intro r2 hr2 j
        have : r2 = 0 := by omega
        subst this
        exact k0 j
      · rintro ⟨j, hj⟩
        rw [k0 j] at hj
        exact absurd hj (by decide)
    | none =>
      have k1 := n1 e1
      cases e2 : scan board symbol (fun nb => hasTwoInARow nb symbol) with
      | some i =>
        refine ⟨2, i, rfl, (h2 i e2).1, ?_, (h2 i e2).2, ?_⟩
        · intro r2 hr2 j
          have : r2 = 0 ∨ r2 = 1 := by omega
          rcases this with rfl | rfl
          · exact k0 j
          · exact k1 j
        · rintro ⟨j, hj⟩
          rw [k0 j] at hj
          exact absurd hj (by decide)
      | none =>
        have k2 := n2 e2
        cases e3 : scan board (opponent symbol)
            (fun nb => hasTwoInARow nb (opponent symbol)) with
        | some i =>
          refine ⟨3, i, rfl, (h3 i e3).1, ?_, (h3 i e3).2, ?_⟩
          · intro r2 hr2 j
            have : r2 = 0 ∨ r2 = 1 ∨ r2 = 2 := by omega
            rcases this with rfl | rfl | rfl
            · exact k0 j
            · exact k1 j
            · exact k2 j
          · rintro ⟨j, hj⟩
            rw [k0 j] at hj
            exact absurd hj (by decide)
        | none =>
          have k3 := n3 e3
          obtain ⟨r, i, hri⟩ := h
          have : r = 0 ∨ r = 1 ∨ r = 2 ∨ r = 3 := by omega
          rcases this with rfl | rfl | rfl | rfl
          · rw [k0 i] at hri
            exact absurd hri (by decide)
          · rw [k1 i] at hri
            exact absurd hri (by decide)
          · rw [k2 i] at hri
            exact absurd hri (by decide)
          · rw [k3 i] at hri
            exact absurd hri (by decide)

theorem mediumMove_rule_cascade_witness :
    ∃ r i, mediumMove 'X' (fun _ => 0) 0 boardXXOO = some (i.val : Int) ∧
      ruleHolds 'X' boardXXOO r i = true ∧
      (∀ r2, r2 < r → ∀ j, ruleHolds 'X' boardXXOO r2 j = false) ∧
      (∀ j, j < i → ruleHolds 'X' boardXXOO r j = false) ∧
      ((∃ j, ruleHolds 'X' boardXXOO 0 j = true) → r = 0) :=
  mediumMove_rule_cascade 'X' (fun _ => 0) 0 boardXXOO ⟨0, 2, by decide⟩

/-! ## Placement -/

/-- C14: writing a mark X or O into the blank cell `i` of a copy changes cell `i` and no other
cell, and the `minimax` loop's undo (`board[i / 3][i % 3] = ' '`) gives back the board it
started from. -/
theorem put_changes_exactly_one_cell (b : Board) (i : Fin 9) (mark : Char)
    (hi : b.cell i = ' ') (hm : mark = 'X' ∨ mark = 'O') :
    (b.put i mark).cell i = mark ∧ (b.put i mark).cell i ≠ b.cell i ∧
    (∀ j, j ≠ i → (b.put i mark).cell j = b.cell j) ∧
    b.write? ((i.val : Int).tdiv 3) ((i.val : Int).tmod 3) mark = some (b.put i mark) ∧
    (b.put i mark).put i ' ' = b := by
  refine ⟨cell_put_same b i mark, ?_, fun j hj => cell_put_ne b i j mark hj,
    write_index b i mark, put_undo b i mark hi⟩
  rw [cell_put_same, hi]
  rcases hm with rfl | rfl <;> decide

theorem put_changes_exactly_one_cell_witness :
    (boardXXOO.put 2 'X').cell 2 = 'X' ∧ (boardXXOO.put 2 'X').cell 2 ≠ boardXXOO.cell 2 ∧
    (∀ j, j ≠ 2 → (boardXXOO.put 2 'X').cell j = boardXXOO.cell j) ∧
    boardXXOO.write? (((2 : Fin 9).val : Int).tdiv 3) (((2 : Fin 9).val : Int).tmod 3) 'X' =
      some (boardXXOO.put 2 'X') ∧
    (boardXXOO.put 2 'X').put 2 ' ' = boardXXOO :=
  put_changes_exactly_one_cell boardXXOO 2 'X' (by decide) (Or.inl rfl)

/-! ## Human input -/

theorem human_skip (board : Board) (p : Int × Int) (rest : List (Int × Int))
    (hfit : fitsInt p) (h : ¬ legalInput board p) :
    HumanPlayer.makeMove board (p :: rest) = HumanPlayer.makeMove board rest := by
  obtain ⟨row, col⟩ := p
  obtain ⟨f1, f2, f3, f4⟩ := hfit
  simp only at f1 f2 f3 f4
  have hf : ¬ (row < INT_MIN ∨ INT_MAX < row ∨ col < INT_MIN ∨ INT_MAX < col) := by omega
  simp only [HumanPlayer.makeMove, hf, if_false]
  by_cases hr : row < 0 ∨ row > 2 ∨ col < 0 ∨ col > 2
  · simp only [hr, if_true]
  · simp only [hr, if_false]
    have hin : 0 ≤ row ∧ row < 3 ∧ 0 ≤ col ∧ col < 3 := by omega
    have hne : board.board (Fin.ofNat row.toNat) (Fin.ofNat col.toNat) ≠ ' ' := by
      intro hc
      apply h
      refine ⟨by omega, by omega, by omega, by omega, ?_⟩
      simp only [Board.at?, hin, and_self, if_true, hc]
    simp [hne]

theorem human_take (board : Board) (p : Int × Int) (rest : List (Int × Int))
    (h : legalInput board p) :
    HumanPlayer.makeMove board (p :: rest) = some (p.1 * 3 + p.2) := by
  obtain ⟨row, col⟩ := p
  obtain ⟨h1, h2, h3, h4, h5⟩ := h
  simp only at h1 h2 h3 h4 h5
  have hin : 0 ≤ row ∧ row < 3 ∧ 0 ≤ col ∧ col < 3 := by omega
  simp only [Board.at?, hin, and_self, if_true, Option.some.injEq] at h5
  have hf : ¬ (row < INT_MIN ∨ INT_MAX < row ∨ col < INT_MIN ∨ INT_MAX < col) := by
    simp only [INT_MIN, INT_MAX]
    omega
  have hr : ¬ (row < 0 ∨ row > 2 ∨ col < 0 ∨ col > 2) := by omega
  simp [HumanPlayer.makeMove, hf, hr, h5]

theorem checkWin_put_other (b : Board) (i : Fin 9) (v s : Char) (h : v ≠ s)
    (hw : (b.put i v).checkWin s = true) : b.checkWin s = true := by
  rw [checkWin_iff_line] at hw ⊢
  obtain ⟨l, hl, hk⟩ := hw
  refine ⟨l, hl, fun k => ?_⟩
  have := hk k
  simp only [Board.put, Board.set] at this
  split at this
  · exact absurd this h
  · exact this

theorem markCount_put (b : Board) (i : Fin 9) (v s : Char) :
    markCount (b.put i v) s + (if b.cell i = s then 1 else 0) =
      markCount b s + (if v = s then 1 else 0) := by
  unfold markCount
  rw [← Finset.add_sum_erase _ _ (Finset.mem_univ i),
    ← Finset.add_sum_erase (Finset.univ) (fun j => if b.cell j = s then 1 else 0)
      (Finset.mem_univ i)]
  have hrest : (Finset.univ.erase i).sum (fun j => if (b.put i v).cell j = s then 1 else 0) =
      (Finset.univ.erase i).sum (fun j => if b.cell j = s then 1 else 0) := by
    apply Finset.sum_congr rfl
    intro j hj
    rw [cell_put_ne b i j v (Finset.ne_of_mem_erase hj)]
  rw [hrest, cell_put_same]
  omega

theorem loop_cond_iff (b : Board) :
    (!b.isFull && !b.checkWin 'X' && !b.checkWin 'O') = true ↔
      b.isFull = false ∧ b.checkWin 'X' = false ∧ b.checkWin 'O' = false := by
  cases b.isFull <;> cases b.checkWin 'X' <;> cases b.checkWin 'O' <;> simp

/-- C11: on every board the loop of `Game::play` reaches with legal moves, `checkWin('X')` and
`checkWin('O')` are not both true, so exactly one of: X has a line, O has a line, draw (full,
no line), ongoing (not full, no line). -/
theorem reachable_not_both_win (b : Board) (currentPlayer : Int)
    (h : Reachable b currentPlayer) :
    ¬ (b.checkWin 'X' = true ∧ b.checkWin 'O' = true) ∧
    ((b.checkWin 'X' = true ∧ b.checkWin 'O' = false) ∨
     (b.checkWin 'O' = true ∧ b.checkWin 'X' = false) ∨
     (b.isFull = true ∧ b.checkWin 'X' = false ∧ b.checkWin 'O' = false) ∨
     (b.isFull = false ∧ b.checkWin 'X' = false ∧ b.checkWin 'O' = false)) := by
  have key : ¬ (b.checkWin 'X' = true ∧ b.checkWin 'O' = true) := by
    cases h with
    | start => decide
    | move b0 cur i hr hc hi =>
      rw [loop_cond_iff] at hc
      rintro ⟨hx, ho⟩
      by_cases h0 : cur = 0
      · simp only [h0, if_true] at ho
        have := checkWin_put_other b0 i 'X' 'O' (by decide) ho
        rw [hc.2.2] at this
        exact absurd this (by decide)
      · simp only [h0, if_false] at hx
        have := checkWin_put_other b0 i 'O' 'X' (by decide) hx
        rw [hc.2.1] at this
        exact absurd this (by decide)
  refine ⟨key, ?_⟩
  revert key
  cases b.isFull <;> cases b.checkWin 'X' <;> cases b.checkWin 'O' <;> simp

theorem reachable_not_both_win_witness :
    ¬ (boardCentreX.checkWin 'X' = true ∧ boardCentreX.checkWin 'O' = true) ∧
    ((boardCentreX.checkWin 'X' = true ∧ boardCentreX.checkWin 'O' = false) ∨
     (boardCentreX.checkWin 'O' = true ∧ boardCentreX.checkWin 'X' = false) ∨
     (boardCentreX.isFull = true ∧ boardCentreX.checkWin 'X' = false ∧
       boardCentreX.checkWin 'O' = false) ∨
     (boardCentreX.isFull = false ∧ boardCentreX.checkWin 'X' = false ∧
       boardCentreX.checkWin 'O' = false)) :=
  reachable_not_both_win boardCentreX (1 - 0)
    (Reachable.move Board.empty 0 4 Reachable.start (by decide) (by decide))

/-- C12: in every state the loop of `Game::play` reaches with legal moves, either it is X's
turn (`currentPlayer = 0`) and the board holds as many X as O, or it is O's turn
(`currentPlayer = 1`) and the board holds exactly one X more than O; so the counts differ by
at most 1 and the player to move is the one whose count is not the greater. -/
theorem reachable_mark_counts (b : Board) (currentPlayer : Int)
    (h : Reachable b currentPlayer) :
    ((currentPlayer = 0 ∧ markCount b 'X' = markCount b 'O') ∨
     (currentPlayer = 1 ∧ markCount b 'X' = markCount b 'O' + 1)) ∧
    markCount b 'X' ≤ markCount b 'O' + 1 ∧ markCount b 'O' ≤ markCount b 'X' := by
  have key : (currentPlayer = 0 ∧ markCount b 'X' = markCount b 'O') ∨
      (currentPlayer = 1 ∧ markCount b 'X' = markCount b 'O' + 1) := by
    induction h with
    | start => exact Or.inl ⟨rfl, by decide⟩
    | move b0 cur i hr hc hi ih =>
      rcases ih with ⟨h0, hcnt⟩ | ⟨h1, hcnt⟩
      · right
        subst h0
        simp only [if_true]
        have hx := markCount_put b0 i 'X' 'X'
        have ho := markCount_put b0 i 'X' 'O'
        rw [hi] at hx ho
        simp only [if_true, show ¬ ((' ' : Char) = 'X') by decide,
          show ¬ ((' ' : Char) = 'O') by decide, show ¬ (('X' : Char) = 'O') by decide,
          if_false] at hx ho
        exact ⟨by omega, by omega⟩
      · left
        subst h1
        simp only [show ¬ ((1 : Int) = 0) by decide, if_false]
        have hx := markCount_put b0 i 'O' 'X'
        have ho := markCount_put b0 i 'O' 'O'
        rw [hi] at hx ho
        simp only [if_true, show ¬ ((' ' : Char) = 'X') by decide,
          show ¬ ((' ' : Char) = 'O') by decide, show ¬ (('O' : Char) = 'X') by decide,
          if_false] at hx ho
        exact ⟨by omega, by omega⟩
  refine ⟨key, ?_, ?_⟩ <;> rcases key with ⟨_, hk⟩ | ⟨_, hk⟩ <;> omega

theorem reachable_mark_counts_witness :
    (((1 : Int) - 0 = 0 ∧ markCount boardCentreX 'X' = markCount boardCentreX 'O') ∨
     ((1 : Int) - 0 = 1 ∧ markCount boardCentreX 'X' = markCount boardCentreX 'O' + 1)) ∧
    markCount boardCentreX 'X' ≤ markCount boardCentreX 'O' + 1 ∧
    markCount boardCentreX 'O' ≤ markCount boardCentreX 'X' :=
  reachable_mark_counts boardCentreX (1 - 0)
    (Reachable.move Board.empty 0 4 Reachable.start (by decide) (by decide))

/-! ## The loops of `minimax` -/

theorem opponent_ne_blank (symbol : Char) : opponent symbol ≠ ' ' := by
  unfold opponent
  split <;> decide

theorem emptyCount_put (b : Board) (i : Fin 9) (v : Char) (hi : b.cell i = ' ')
    (hv : v ≠ ' ') : emptyCount (b.put i v) + 1 = emptyCount b := by
  have := markCount_put b i v ' '
  simp only [hi, if_true, hv, if_false] at this
  unfold emptyCount
  omega

theorem emptyCount_le (b : Board) : emptyCount b ≤ 9 := by
  unfold emptyCount markCount
  calc (Finset.univ.sum fun i : Fin 9 => if b.cell i = ' ' then 1 else 0)
      ≤ Finset.univ.sum fun _ : Fin 9 => 1 := by
        apply Finset.sum_le_sum
        intro i _
        split <;> omega
    _ = 9 := by simp

theorem exists_blank_of_not_full (b : Board) (h : b.isFull = false) :
    ∃ i : Fin 9, b.cell i = ' ' := by
  by_contra hne
  have hall : ∀ r c : Fin 3, b.board r c ≠ ' ' := by
    intro r c hc
    obtain ⟨i, hr, hcc⟩ := cell_index_surj r c
    apply hne
    exact ⟨i, by simp only [Board.cell, hr, hcc, hc]⟩
  rw [(isFull_iff_no_blank b).2 hall] at h
  exact absurd h (by decide)

theorem maxLoop_blank (child : Board → Int → Int → Option Int) (symbol : Char) (i : Fin 9)
    (rest : List (Fin 9)) (b : Board) (m a be : Int) (h : b.cell i = ' ') :
    maxLoop child symbol (i :: rest) b m a be =
      match child (b.put i symbol) a be with
      | none => none
      | some v =>
        if be ≤ max a (max m v) then some (max m v)
        else maxLoop child symbol rest b (max m v) (max a (max m v)) be := by
  simp only [maxLoop, h, beq_self_eq_true, if_true, put_undo b i symbol h]

theorem maxLoop_occupied (child : Board → Int → Int → Option Int) (symbol : Char) (i : Fin 9)
    (rest : List (Fin 9)) (b : Board) (m a be : Int) (h : b.cell i ≠ ' ') :
    maxLoop child symbol (i :: rest) b m a be = maxLoop child symbol rest b m a be := by
  simp [maxLoop, h]

theorem minLoop_blank (child : Board → Int → Int → Option Int) (symbol : Char) (i : Fin 9)
    (rest : List (Fin 9)) (b : Board) (m a be : Int) (h : b.cell i = ' ') :
    minLoop child symbol (i :: rest) b m a be =
      match child (b.put i (opponent symbol)) a be with
      | none => none
      | some v =>
        if min be (min m v) ≤ a then some (min m v)
        else minLoop child symbol rest b (min m v) a (min be (min m v)) := by
  simp only [minLoop, h, beq_self_eq_true, if_true, put_undo b i (opponent symbol) h]

theorem minLoop_occupied (child : Board → Int → Int → Option Int) (symbol : Char) (i : Fin 9)
    (rest : List (Fin 9)) (b : Board) (m a be : Int) (h : b.cell i ≠ ' ') :
    minLoop child symbol (i :: rest) b m a be = minLoop child symbol rest b m a be := by
  simp [minLoop, h]

/-- The maximizing loop returns, and its result is the running maximum it started with or
the value of a child, and is at least the value of some child when a blank cell remains. -/
theorem maxLoop_spec (child : Board → Int → Int → Option Int) (symbol : Char) (P : Int → Prop)
    (b : Board) (be : Int) (l : List (Fin 9))
    (hchild : ∀ i ∈ l, b.cell i = ' ' → ∀ a2 be2, ∃ v, child (b.put i symbol) a2 be2 = some v ∧ P v)
    (m a : Int) :
    ∃ r, maxLoop child symbol l b m a be = some r ∧ m ≤ r ∧ (r = m ∨ P r) ∧
      ((∃ i ∈ l, b.cell i = ' ') → ∃ v, P v ∧ v ≤ r) := by
  induction l generalizing m a with
  | nil =>
    exact ⟨m, rfl, le_refl _, Or.inl rfl, fun ⟨i, hi, _⟩ => absurd hi (List.not_mem_nil i)⟩
  | cons i rest ih =>
    have hrest : ∀ j ∈ rest, b.cell j = ' ' → ∀ a2 be2,
        ∃ v, child (b.put j symbol) a2 be2 = some v ∧ P v :=
      fun j hj => hchild j (List.mem_cons_of_mem _ hj)
    by_cases hc : b.cell i = ' '
    · obtain ⟨v, hv, hPv⟩ := hchild i (List.mem_cons_self _ _) hc a be
      rw [maxLoop_blank _ _ _ _ _ _ _ _ hc, hv]
      have hmv : max m v = m ∨ max m v = v := by
        rcases le_total m v with h | h
        · exact Or.inr (max_eq_right h)
        · exact Or.inl (max_eq_left h)
      by_cases hcut : be ≤ max a (max m v)
      · simp only [hcut, if_true]
        refine ⟨max m v, rfl, le_max_left _ _, ?_, fun _ => ⟨v, hPv, le_max_right _ _⟩⟩
        rcases hmv with h | h
        · exact Or.inl h
        · exact Or.inr (by rw [h]; exact hPv)
      · simp only [hcut, if_false]
        obtain ⟨r, hr, h1, h2, _⟩ := ih hrest (max m v) (max a (max m v))
        refine ⟨r, hr, le_trans (le_max_left _ _) h1, ?_,
          fun _ => ⟨v, hPv, le_trans (le_max_right _ _) h1⟩⟩
        rcases h2 with h2 | h2
        · rcases hmv with h | h
          · exact Or.inl (h2.trans h)
          · exact Or.inr (by have e : r = v := h2.trans h; rw [e]; exact hPv)
        · exact Or.inr h2
    · rw [maxLoop_occupied _ _ _ _ _ _ _ _ hc]
      obtain ⟨r, hr, h1, h2, h3⟩ := ih hrest m a
      refine ⟨r, hr, h1, h2, ?_⟩
      rintro ⟨j, hj, hjc⟩
      apply h3
      rcases List.mem_cons.1 hj with rfl | hj2
      · exact absurd hjc hc
      · exact ⟨j, hj2, hjc⟩

/-- The minimizing loop returns, and its result is the running minimum it started with or
the value of a child, and is at most the value of some child when a blank cell remains. -/
theorem minLoop_spec (child : Board → Int → Int → Option Int) (symbol : Char) (P : Int → Prop)
    (b : Board) (a : Int) (l : List (Fin 9))
    (hchild : ∀ i ∈ l, b.cell i = ' ' →
      ∀ a2 be2, ∃ v, child (b.put i (opponent symbol)) a2 be2 = some v ∧ P v)
    (m be : Int) :
    ∃ r, minLoop child symbol l b m a be = some r ∧ r ≤ m ∧ (r = m ∨ P r) ∧
      ((∃ i ∈ l, b.cell i = ' ') → ∃ v, P v ∧ r ≤ v) := by
  induction l generalizing m be with
  | nil =>
    exact ⟨m, rfl, le_refl _, Or.inl rfl, fun ⟨i, hi, _⟩ => absurd hi (List.not_mem_nil i)⟩
  | cons i rest ih =>
    have hrest : ∀ j ∈ rest, b.cell j = ' ' → ∀ a2 be2,
        ∃ v, child (b.put j (opponent symbol)) a2 be2 = some v ∧ P v :=
      fun j hj => hchild j (List.mem_cons_of_mem _ hj)
    by_cases hc : b.cell i = ' '
    · obtain ⟨v, hv, hPv⟩ := hchild i (List.mem_cons_self _ _) hc a be
      rw [minLoop_blank _ _ _ _ _ _ _ _ hc, hv]
      have hmv : min m v = m ∨ min m v = v := by
        rcases le_total m v with h | h
        · exact Or.inl (min_eq_left h)
        · exact Or.inr (min_eq_right h)
      by_cases hcut : min be (min m v) ≤ a
      · simp only [hcut, if_true]
        refine ⟨min m v, rfl, min_le_left _ _, ?_, fun _ => ⟨v, hPv, min_le_right _ _⟩⟩
        rcases hmv with h | h
        · exact Or.inl h
        · exact Or.inr (by rw [h]; exact hPv)
      · simp only [hcut, if_false]
        obtain ⟨r, hr, h1, h2, _⟩ := ih hrest (min m v) (min be (min m v))
        refine ⟨r, hr, le_trans h1 (min_le_left _ _), ?_,
          fun _ => ⟨v, hPv, le_trans h1 (min_le_right _ _)⟩⟩
        rcases h2 with h2 | h2
        · rcases hmv with h | h
          · exact Or.inl (h2.trans h)
          · exact Or.inr (by have e : r = v := h2.trans h; rw [e]; exact hPv)
        · exact Or.inr h2
    · rw [minLoop_occupied _ _ _ _ _ _ _ _ hc]
      obtain ⟨r, hr, h1, h2, h3⟩ := ih hrest m be
      refine ⟨r, hr, h1, h2, ?_⟩
      rintro ⟨j, hj, hjc⟩
      apply h3
      rcases List.mem_cons.1 hj with rfl | hj2
      · exact absurd hjc hc
      · exact ⟨j, hj2, hjc⟩

/-- With fuel above the number of blank cells `minimax` returns; when `depth` is the number
of plies below a root of at most nine blank cells, the value lies in `depth - 10 .. 10 - depth`. -/
theorem minimax_returns (symbol : Char) (hs : symbol ≠ ' ') (fuel : Nat) :
    ∀ (b : Board) (depth : Int) (mp : Bool) (alpha beta : Int), emptyCount b < fuel →
      ∃ v, minimax symbol fuel b depth mp alpha beta = some v ∧
        (0 ≤ depth → depth + emptyCount b ≤ 9 → depth - 10 ≤ v ∧ v ≤ 10 - depth) := by
  induction fuel with
  | zero => intro b depth mp alpha beta h; omega
  | succ n ih =>
    intro b depth mp alpha beta hf
    simp only [minimax]
    by_cases h1 : b.checkWin symbol = true
    · simp only [h1, if_true]
      exact ⟨_, rfl, fun _ _ => by unfold wrapInt32; omega⟩
    simp only [h1, if_false]
    by_cases h2 : b.checkWin (opponent symbol) = true
    · simp only [h2, if_true]
      exact ⟨_, rfl, fun _ _ => by unfold wrapInt32; omega⟩
    simp only [h2, if_false]
    by_cases h3 : b.isFull = true
    · simp only [h3, if_true]
      exact ⟨_, rfl, fun _ _ => by omega⟩
    simp only [h3, if_false]
    have hblank : ∃ i ∈ idx9, b.cell i = ' ' := by
      obtain ⟨i, hi⟩ := exists_blank_of_not_full b (by simpa using h3)
      exact ⟨i, mem_idx9 i, hi⟩
    let P : Int → Prop := fun v =>
      0 ≤ depth → depth + emptyCount b ≤ 9 → depth - 9 ≤ v ∧ v ≤ 9 - depth
    have hkid : ∀ (mark : Char), mark ≠ ' ' → ∀ (flag : Bool), ∀ i ∈ idx9, b.cell i = ' ' →
        ∀ a2 be2, ∃ v, minimax symbol n (b.put i mark) (wrapInt32 (depth + 1)) flag a2 be2 =
          some v ∧ P v := by
      intro mark hm flag i _ hi a2 be2
      have he := emptyCount_put b i mark hi hm
      obtain ⟨v, hv, hb⟩ := ih (b.put i mark) (wrapInt32 (depth + 1)) flag a2 be2 (by omega)
      refine ⟨v, hv, fun h0 h9 => ?_⟩
      have hw : wrapInt32 (depth + 1) = depth + 1 := wrapInt32_of_fits _ (by omega) (by omega)
      rw [hw] at hb
      have := hb (by omega) (by omega)
      omega
    cases mp with
    | true =>
      simp only [if_true]
      obtain ⟨r, hr, _, h5, h6⟩ := maxLoop_spec
        (fun b2 a2 be2 => minimax symbol n b2 (wrapInt32 (depth + 1)) false a2 be2) symbol P b beta idx9
        (hkid symbol hs false) (-INT_MAX) alpha
      refine ⟨r, hr, fun h0 h9 => ?_⟩
      obtain ⟨v, hPv, hvr⟩ := h6 hblank
      have hv := hPv h0 h9
      rcases h5 with h5 | h5
      · simp only [INT_MAX] at h5
        omega
      · have := h5 h0 h9
        omega
    | false =>
      simp only [Bool.false_eq_true, if_false]
      obtain ⟨r, hr, _, h5, h6⟩ := minLoop_spec
        (fun b2 a2 be2 => minimax symbol n b2 (wrapInt32 (depth + 1)) true a2 be2) symbol P b alpha idx9
        (hkid (opponent symbol) (opponent_ne_blank symbol) true) INT_MAX beta
      refine ⟨r, hr, fun h0 h9 => ?_⟩
      obtain ⟨v, hPv, hvr⟩ := h6 hblank
      have hv := hPv h0 h9
      rcases h5 with h5 | h5
      · simp only [INT_MAX] at h5
        omega
      · have := h5 h0 h9
        omega

theorem symbol_ne_blank (symbol : Char) (hs : symbol = 'X' ∨ symbol = 'O') : symbol ≠ ' ' := by
  rcases hs with rfl | rfl <;> decide

theorem not_full_of_blank (b : Board) (i : Fin 9) (hi : b.cell i = ' ') : b.isFull = false := by
  cases hf : b.isFull with
  | false => rfl
  | true => exact absurd hi ((isFull_iff_no_blank b).1 hf _ _)

/-- With the window open above (`hi < beta`), children bounded by `hi`, and a child worth
exactly `hi` among the cells still to visit, the maximizing loop returns `hi`. -/
theorem maxLoop_top (child : Board → Int → Int → Option Int) (symbol : Char) (b : Board)
    (be hi : Int) (hbe : hi < be) (l : List (Fin 9))
    (hchild : ∀ i ∈ l, b.cell i = ' ' →
      ∀ a2 be2, ∃ v, child (b.put i symbol) a2 be2 = some v ∧ v ≤ hi)
    (m a : Int) (hm : m ≤ hi) (ha : a ≤ hi)
    (hwin : m = hi ∨ ∃ j ∈ l, b.cell j = ' ' ∧ ∀ a2 be2, child (b.put j symbol) a2 be2 = some hi) :
    maxLoop child symbol l b m a be = some hi := by
  induction l generalizing m a with
  | nil =>
    rcases hwin with h | ⟨j, hj, _⟩
    · simp [maxLoop, h]
    · exact absurd hj (List.not_mem_nil j)
  | cons i rest ih =>
    have hrest : ∀ j ∈ rest, b.cell j = ' ' → ∀ a2 be2,
        ∃ v, child (b.put j symbol) a2 be2 = some v ∧ v ≤ hi :=
      fun j hj => hchild j (List.mem_cons_of_mem _ hj)
    by_cases hc : b.cell i = ' '
    · obtain ⟨v, hv, hvhi⟩ := hchild i (List.mem_cons_self _ _) hc a be
      rw [maxLoop_blank _ _ _ _ _ _ _ _ hc, hv]
      have hcut : ¬ be ≤ max a (max m v) := by omega
      simp only [hcut, if_false]
      apply ih hrest _ _ (by omega) (by omega)
      rcases hwin with h | ⟨j, hj, hjc, hjw⟩
      · left; omega
      · rcases List.mem_cons.1 hj with rfl | hj2
        · left
          have := hjw a be
          rw [hv] at this
          have e : v = hi := by simpa using this
          omega
        · exact Or.inr ⟨j, hj2, hjc, hjw⟩
    · rw [maxLoop_occupied _ _ _ _ _ _ _ _ hc]
      apply ih hrest _ _ hm ha
      rcases hwin with h | ⟨j, hj, hjc, hjw⟩
      · exact Or.inl h
      · rcases List.mem_cons.1 hj with rfl | hj2
        · exact absurd hjc hc
        · exact Or.inr ⟨j, hj2, hjc, hjw⟩

theorem minimax_boardLate : minimax 'X' 10 boardLate 8 true (-INT_MAX) INT_MAX = some 2 := by
  decide!

/-- C17: `minimax` terminates: a recursive call is made on a board with exactly one blank
cell fewer, a board has at most nine blank cells, and a nesting of calls one deeper than the
number of blank cells of the root is enough for the call to return. -/
theorem minimax_terminates (symbol : Char) (hs : symbol = 'X' ∨ symbol = 'O') (b : Board)
    (depth : Int) (mp : Bool) (alpha beta : Int) :
    emptyCount b ≤ 9 ∧
    (∀ i mark, b.cell i = ' ' → (mark = symbol ∨ mark = opponent symbol) →
      emptyCount (b.put i mark) + 1 = emptyCount b) ∧
    (∀ fuel, emptyCount b < fuel →
      (minimax symbol fuel b depth mp alpha beta).isSome = true) := by
  refine ⟨emptyCount_le b, ?_, ?_⟩
  · intro i mark hi hm
    apply emptyCount_put b i mark hi
    rcases hm with rfl | rfl
    · exact symbol_ne_blank _ hs
    · exact opponent_ne_blank _
  · intro fuel hf
    obtain ⟨v, hv, _⟩ := minimax_returns symbol (symbol_ne_blank symbol hs) fuel b depth mp
      alpha beta hf
    rw [hv]
    rfl

theorem minimax_terminates_witness :
    emptyCount boardXXOO ≤ 9 ∧
    (∀ i mark, boardXXOO.cell i = ' ' → (mark = 'X' ∨ mark = opponent 'X') →
      emptyCount (boardXXOO.put i mark) + 1 = emptyCount boardXXOO) ∧
    (∀ fuel, emptyCount boardXXOO < fuel →
      (minimax 'X' fuel boardXXOO 0 true (-INT_MAX) INT_MAX).isSome = true) :=
  minimax_terminates 'X' (Or.inl rfl) boardXXOO 0 true (-INT_MAX) INT_MAX

/-- C20: at depth 0, for every board, flag and window (also when `beta ≤ alpha`), `minimax`
returns a value between -10 and 10, never `INT_MAX` or `-INT_MAX`. -/
theorem minimax_root_value_bounded (symbol : Char) (hs : symbol = 'X' ∨ symbol = 'O')
    (b : Board) (mp : Bool) (alpha beta : Int) (fuel : Nat) (hf : emptyCount b < fuel) :
    ∃ v, minimax symbol fuel b 0 mp alpha beta = some v ∧ -10 ≤ v ∧ v ≤ 10 ∧
      v ≠ INT_MAX ∧ v ≠ -INT_MAX := by
  obtain ⟨v, hv, hb⟩ := minimax_returns symbol (symbol_ne_blank symbol hs) fuel b 0 mp
    alpha beta hf
  have he := emptyCount_le b
  have := hb (le_refl 0) (by omega)
  refine ⟨v, hv, by omega, by omega, ?_, ?_⟩ <;> simp only [INT_MAX] <;> omega

theorem minimax_root_value_bounded_witness :
    ∃ v, minimax 'O' 10 boardFork 0 false 5 (-5) = some v ∧ -10 ≤ v ∧ v ≤ 10 ∧
      v ≠ INT_MAX ∧ v ≠ -INT_MAX :=
  minimax_root_value_bounded 'O' (Or.inr rfl) boardFork false 5 (-5) 10 (by decide)

/-! ## The two robots on the same position -/

theorem opponent_X : opponent 'X' = 'O' := by decide

theorem opponent_O : opponent 'O' = 'X' := by decide

theorem maxLoop_neg_minLoop (child1 child2 : Board → Int → Int → Option Int) (b : Board)
    (be : Int) (l : List (Fin 9))
    (hchild : ∀ i ∈ l, b.cell i = ' ' → ∀ a2 be2,
      child1 (b.put i 'X') a2 be2 = (child2 (b.put i 'X') (-be2) (-a2)).map (fun v => -v))
    (m a : Int) :
    maxLoop child1 'X' l b m a be =
      (minLoop child2 'O' l b (-m) (-be) (-a)).map (fun v => -v) := by
  induction l generalizing m a with
  | nil => simp [maxLoop, minLoop]
  | cons i rest ih =>
    have hrest : ∀ j ∈ rest, b.cell j = ' ' → ∀ a2 be2,
        child1 (b.put j 'X') a2 be2 = (child2 (b.put j 'X') (-be2) (-a2)).map (fun v => -v) :=
      fun j hj => hchild j (List.mem_cons_of_mem _ hj)
    by_cases hc : b.cell i = ' '
    · rw [maxLoop_blank _ _ _ _ _ _ _ _ hc, minLoop_blank _ _ _ _ _ _ _ _ hc, opponent_O,
        hchild i (List.mem_cons_self _ _) hc a be]
      cases child2 (b.put i 'X') (-be) (-a) with
      | none => rfl
      | some w =>
        simp only [Option.map_some']
        have e1 : min (-m) w = -(max m (-w)) := by omega
        have e2 : min (-a) (min (-m) w) = -(max a (max m (-w))) := by omega
        rw [e2, e1]
        by_cases hcut : be ≤ max a (max m (-w))
        · have hcut2 : -(max a (max m (-w))) ≤ -be := by omega
          simp only [hcut, hcut2, if_true, Option.map_some', neg_neg]
        · have hcut2 : ¬ -(max a (max m (-w))) ≤ -be := by omega
          simp only [hcut, hcut2, if_false]
          exact ih hrest _ _
    · rw [maxLoop_occupied _ _ _ _ _ _ _ _ hc, minLoop_occupied _ _ _ _ _ _ _ _ hc]
      exact ih hrest _ _

theorem minLoop_neg_maxLoop (child1 child2 : Board → Int → Int → Option Int) (b : Board)
    (a : Int) (l : List (Fin 9))
    (hchild : ∀ i ∈ l, b.cell i = ' ' → ∀ a2 be2,
      child1 (b.put i 'O') a2 be2 = (child2 (b.put i 'O') (-be2) (-a2)).map (fun v => -v))
    (m be : Int) :
    minLoop child1 'X' l b m a be =
      (maxLoop child2 'O' l b (-m) (-be) (-a)).map (fun v => -v) := by
  induction l generalizing m be with
  | nil => simp [maxLoop, minLoop]
  | cons i rest ih =>
    have hrest : ∀ j ∈ rest, b.cell j = ' ' → ∀ a2 be2,
        child1 (b.put j 'O') a2 be2 = (child2 (b.put j 'O') (-be2) (-a2)).map (fun v => -v) :=
      fun j hj => hchild j (List.mem_cons_of_mem _ hj)
    by_cases hc : b.cell i = ' '
    · rw [maxLoop_blank _ _ _ _ _ _ _ _ hc, minLoop_blank _ _ _ _ _ _ _ _ hc, opponent_X,
        hchild i (List.mem_cons_self _ _) hc a be]
      cases child2 (b.put i 'O') (-be) (-a) with
      | none => rfl
      | some w =>
        simp only [Option.map_some']
        have e1 : max (-m) w = -(min m (-w)) := by omega
        have e2 : max (-be) (max (-m) w) = -(min be (min m (-w))) := by omega
        rw [e2, e1]
        by_cases hcut : min be (min m (-w)) ≤ a
        · have hcut2 : -a ≤ -(min be (min m (-w))) := by omega
          simp only [hcut, hcut2, if_true, Option.map_some', neg_neg]
        · have hcut2 : ¬ -a ≤ -(min be (min m (-w))) := by omega
          simp only [hcut, hcut2, if_false]
          exact ih hrest _ _
    · rw [maxLoop_occupied _ _ _ _ _ _ _ _ hc, minLoop_occupied _ _ _ _ _ _ _ _ hc]
      exact ih hrest _ _

theorem emptyCount_pos_of_blank (b : Board) (i : Fin 9) (hi : b.cell i = ' ') :
    0 < emptyCount b := by
  have := emptyCount_put b i 'X' hi (by decide)
  omega

theorem minimax_X_neg_O (fuel : Nat) :
    ∀ (b : Board) (depth : Int) (mp : Bool) (alpha beta : Int),
      ¬ (b.checkWin 'X' = true ∧ b.checkWin 'O' = true) →
      -2147483637 ≤ depth → depth + emptyCount b ≤ 2147483647 →
      minimax 'X' fuel b depth mp alpha beta =
        (minimax 'O' fuel b depth (!mp) (-beta) (-alpha)).map (fun v => -v) := by
  induction fuel with
  | zero => intro b depth mp alpha beta _ _ _; simp [minimax]
  | succ n ih =>
    intro b depth mp alpha beta hnb hlo hhi
    have e1 : wrapInt32 (10 - depth) = 10 - depth := wrapInt32_of_fits _ (by omega) (by omega)
    have e2 : wrapInt32 (depth - 10) = depth - 10 := wrapInt32_of_fits _ (by omega) (by omega)
    simp only [minimax, opponent_X, opponent_O, e1, e2]
    cases hx : b.checkWin 'X' with
    | true =>
      have ho : b.checkWin 'O' = false := by
        cases h : b.checkWin 'O' with
        | false => rfl
        | true => exact absurd ⟨hx, h⟩ hnb
      simp only [ho, if_true, Bool.false_eq_true, if_false, Option.map_some']
      congr 1
      omega
    | false =>
      cases ho : b.checkWin 'O' with
      | true =>
        simp only [if_true, Bool.false_eq_true, if_false, Option.map_some']
        congr 1
        omega
      | false =>
        simp only [Bool.false_eq_true, if_false]
        cases hf : b.isFull with
        | true => simp
        | false =>
          simp only [Bool.false_eq_true, if_false]
          obtain ⟨i0, hi0⟩ := exists_blank_of_not_full b hf
          have hpos := emptyCount_pos_of_blank b i0 hi0
          have hwd : wrapInt32 (depth + 1) = depth + 1 :=
            wrapInt32_of_fits _ (by omega) (by omega)
          rw [hwd]
          cases mp with
          | true =>
            simp only [if_true, Bool.not_true, Bool.false_eq_true, if_false]
            have := maxLoop_neg_minLoop
              (fun b2 a2 be2 => minimax 'X' n b2 (depth + 1) false a2 be2)
              (fun b2 a2 be2 => minimax 'O' n b2 (depth + 1) true a2 be2) b beta idx9
              (fun i _ hi a2 be2 => by
                have hno : ¬ ((b.put i 'X').checkWin 'X' = true ∧
                    (b.put i 'X').checkWin 'O' = true) := by
                  rintro ⟨_, h2⟩
                  have := checkWin_put_other b i 'X' 'O' (by decide) h2
                  rw [ho] at this
                  exact absurd this (by decide)
                have hei := emptyCount_put b i 'X' hi (by decide)
                have := ih (b.put i 'X') (depth + 1) false a2 be2 hno (by omega) (by omega)
                simpa using this)
              (-INT_MAX) alpha
            rw [this, neg_neg]
          | false =>
            simp only [Bool.false_eq_true, if_false, Bool.not_false, if_true]
            have := minLoop_neg_maxLoop
              (fun b2 a2 be2 => minimax 'X' n b2 (depth + 1) true a2 be2)
              (fun b2 a2 be2 => minimax 'O' n b2 (depth + 1) false a2 be2) b alpha idx9
              (fun i _ hi a2 be2 => by
                have hno : ¬ ((b.put i 'O').checkWin 'X' = true ∧
                    (b.put i 'O').checkWin 'O' = true) := by
                  rintro ⟨h1, _⟩
                  have := checkWin_put_other b i 'O' 'X' (by decide) h1
                  rw [hx] at this
                  exact absurd this (by decide)
                have hei := emptyCount_put b i 'O' hi (by decide)
                have := ih (b.put i 'O') (depth + 1) true a2 be2 hno (by omega) (by omega)
                simpa using this)
              INT_MAX beta
            rw [this]

theorem count_two_or_all : ∀ (f : Fin 3 → Bool) (k1 k2 : Fin 3), k1 ≠ k2 → f k1 = true →
    f k2 = true → (idx3.filter f).length = 2 ∨ ∀ k, f k = true := by
  decide

theorem line_two_marks (nb : Board) (mark : Char) (l : Fin 3 → Fin 3 × Fin 3)
    (hl : l ∈ allLines) (k1 k2 : Fin 3) (hk : k1 ≠ k2)
    (h1 : nb.board (l k1).1 (l k1).2 = mark) (h2 : nb.board (l k2).1 (l k2).2 = mark) :
    nb.checkWin mark = true ∨ hasTwoInARow nb mark = true := by
  rcases count_two_or_all (fun k => nb.board (l k).1 (l k).2 == mark) k1 k2 hk
      (by simpa using h1) (by simpa using h2) with h | h
  · right
    rw [hasTwoInARow_iff_line_count]
    exact ⟨l, hl, h⟩
  · left
    rw [checkWin_iff_line]
    exact ⟨l, hl, fun k => by simpa using h k⟩

theorem row_mem_allLines (r : Fin 3) : (fun j : Fin 3 => (r, j)) ∈ allLines := by
  fin_cases r <;> simp [allLines]

theorem col_mem_allLines (c : Fin 3) : (fun i : Fin 3 => (i, c)) ∈ allLines := by
  fin_cases c <;> simp [allLines]

/-- A board with a blank cell and a marked cell has a line holding a blank cell and a marked
cell. -/
theorem blank_next_to_mark (b : Board) (hm : ∃ r c, b.board r c ≠ ' ')
    (he : ∃ r c, b.board r c = ' ') :
    ∃ l ∈ allLines, ∃ k1 k2 : Fin 3, k1 ≠ k2 ∧ l k1 ≠ l k2 ∧
      b.board (l k1).1 (l k1).2 = ' ' ∧ b.board (l k2).1 (l k2).2 ≠ ' ' := by
  obtain ⟨r, c, hp⟩ := hm
  obtain ⟨r2, c2, hb⟩ := he
  by_cases hr : r = r2
  · subst hr
    have hc : c2 ≠ c := by
      rintro rfl
      exact hp hb
    exact ⟨_, row_mem_allLines r, c2, c, hc, by simpa using hc, hb, hp⟩
  · by_cases hq : b.board r c2 = ' '
    · have hc : c2 ≠ c := by
        rintro rfl
        exact hp hq
      exact ⟨_, row_mem_allLines r, c2, c, hc, by simpa using hc, hq, hp⟩
    · have hr2 : r2 ≠ r := fun h => hr h.symm
      exact ⟨_, col_mem_allLines c2, r2, r, hr2, by simpa using hr2, hb, hq⟩

theorem some_rule_holds (symbol : Char) (hs : symbol = 'X' ∨ symbol = 'O') (b : Board)
    (hwf : WellFormed b) (hm : ∃ r c, b.board r c ≠ ' ') (he : ∃ r c, b.board r c = ' ') :
    ∃ r i, ruleHolds symbol b r i = true := by
  obtain ⟨l, hl, k1, k2, hk, hne, h1, h2⟩ := blank_next_to_mark b hm he
  obtain ⟨i, hir, hic⟩ := cell_index_surj (l k1).1 (l k1).2
  have hcell : b.cell i = ' ' := by simp only [Board.cell, hir, hic, h1]
  have hput1 : ∀ mark, (b.put i mark).board (l k1).1 (l k1).2 = mark := by
    intro mark
    simp [Board.put, Board.set, hir, hic]
  have hput2 : ∀ mark, (b.put i mark).board (l k2).1 (l k2).2 = b.board (l k2).1 (l k2).2 := by
    intro mark
    simp only [Board.put, Board.set, hir, hic]
    split
    · rename_i h
      exact absurd (Prod.ext h.1 h.2).symm hne
    · rfl
  have key : ∀ mark, b.board (l k2).1 (l k2).2 = mark →
      (b.put i mark).checkWin mark = true ∨ hasTwoInARow (b.put i mark) mark = true := by
    intro mark hmk
    exact line_two_marks _ mark l hl k1 k2 hk (hput1 mark) (by rw [hput2, hmk])
  have hmark : b.board (l k2).1 (l k2).2 = symbol ∨
      b.board (l k2).1 (l k2).2 = opponent symbol := by
    rcases hwf (l k2).1 (l k2).2 with h | h | h
    · exact absurd h h2
    · rcases hs with rfl | rfl
      · exact Or.inl h
      · exact Or.inr (by rw [h, opponent_O])
    · rcases hs with rfl | rfl
      · exact Or.inr (by rw [h, opponent_X])
      · exact Or.inl h
  rcases hmark with h | h
  · rcases key symbol h with hw | hw
    · exact ⟨0, i, by simp [ruleHolds, hcell, hw]⟩
    · exact ⟨2, i, by simp [ruleHolds, hcell, hw]⟩
  · rcases key (opponent symbol) h with hw | hw
    · exact ⟨1, i, by simp [ruleHolds, hcell, hw]⟩
    · exact ⟨3, i, by simp [ruleHolds, hcell, hw]⟩

/-- C18: on a board of blanks, X and O with at least one mark and at least one blank cell,
one of the four rules of `mediumMove` returns, so the result is a cell index that does not
depend on the random source. -/
theorem mediumMove_deterministic (symbol : Char) (hs : symbol = 'X' ∨ symbol = 'O') (b : Board)
    (hwf : WellFormed b) (hm : ∃ r c, b.board r c ≠ ' ') (he : ∃ r c, b.board r c = ' ')
    (rng1 rng2 : Nat → Fin 9) (fuel1 fuel2 : Nat) :
    (∃ r i, ruleHolds symbol b r i = true ∧
      mediumMove symbol rng1 fuel1 b = some (i.val : Int)) ∧
    mediumMove symbol rng1 fuel1 b = mediumMove symbol rng2 fuel2 b := by
  have hex := some_rule_holds symbol hs b hwf hm he
  obtain ⟨r1, i1, e1, hr1, hlow1, hfirst1, _⟩ := mediumMove_rule_cascade symbol rng1 fuel1 b hex
  obtain ⟨r2, i2, e2, hr2, hlow2, hfirst2, _⟩ := mediumMove_rule_cascade symbol rng2 fuel2 b hex
  refine ⟨⟨r1, i1, hr1, e1⟩, ?_⟩
  have hr : r1 = r2 := by
    rcases lt_trichotomy r1 r2 with h | h | h
    · have := hlow2 r1 h i1
      rw [hr1] at this
      exact absurd this (by decide)
    · exact h
    · have := hlow1 r2 h i2
      rw [hr2] at this
      exact absurd this (by decide)
  subst hr
  have hi : i1 = i2 := by
    rcases lt_trichotomy i1 i2 with h | h | h
    · have := hfirst2 i1 h
      rw [hr1] at this
      exact absurd this (by decide)
    · exact h
    · have := hfirst1 i2 h
      rw [hr2] at this
      exact absurd this (by decide)
  rw [e1, e2, hi]

theorem mediumMove_deterministic_witness :
    (∃ r i, ruleHolds 'X' boardCentreO r i = true ∧
      mediumMove 'X' (fun _ => 4) 0 boardCentreO = some (i.val : Int)) ∧
    mediumMove 'X' (fun _ => 4) 0 boardCentreO = mediumMove 'X' (fun _ => 7) 5 boardCentreO :=
  mediumMove_deterministic 'X' (Or.inl rfl) boardCentreO (by decide) ⟨1, 1, by decide⟩
    ⟨0, 0, by decide⟩ (fun _ => 4) (fun _ => 7) 0 5

/-! ## Pruning -/

theorem plainMaxLoop_blank (child : Board → Option Int) (symbol : Char) (i : Fin 9)
    (rest : List (Fin 9)) (b : Board) (m : Int) (h : b.cell i = ' ') :
    plainMaxLoop child symbol (i :: rest) b m =
      match child (b.put i symbol) with
      | none => none
      | some v => plainMaxLoop child symbol rest b (max m v) := by
  simp only [plainMaxLoop, h, beq_self_eq_true, if_true]

theorem plainMaxLoop_occupied (child : Board → Option Int) (symbol : Char) (i : Fin 9)
    (rest : List (Fin 9)) (b : Board) (m : Int) (h : b.cell i ≠ ' ') :
    plainMaxLoop child symbol (i :: rest) b m = plainMaxLoop child symbol rest b m := by
  simp [plainMaxLoop, h]

theorem plainMinLoop_blank (child : Board → Option Int) (symbol : Char) (i : Fin 9)
    (rest : List (Fin 9)) (b : Board) (m : Int) (h : b.cell i = ' ') :
    plainMinLoop child symbol (i :: rest) b m =
      match child (b.put i (opponent symbol)) with
      | none => none
      | some v => plainMinLoop child symbol rest b (min m v) := by
  simp only [plainMinLoop, h, beq_self_eq_true, if_true]

theorem plainMinLoop_occupied (child : Board → Option Int) (symbol : Char) (i : Fin 9)
    (rest : List (Fin 9)) (b : Board) (m : Int) (h : b.cell i ≠ ' ') :
    plainMinLoop child symbol (i :: rest) b m = plainMinLoop child symbol rest b m := by
  simp [plainMinLoop, h]

theorem plainMaxLoop_spec (child : Board → Option Int) (symbol : Char) (P : Int → Prop)
    (b : Board) (l : List (Fin 9))
    (hchild : ∀ i ∈ l, b.cell i = ' ' → ∃ v, child (b.put i symbol) = some v ∧ P v)
    (m : Int) :
    ∃ r, plainMaxLoop child symbol l b m = some r ∧ m ≤ r ∧ (r = m ∨ P r) ∧
      ((∃ i ∈ l, b.cell i = ' ') → ∃ v, P v ∧ v ≤ r) := by
  induction l generalizing m with
  | nil =>
    exact ⟨m, rfl, le_refl _, Or.inl rfl, fun ⟨i, hi, _⟩ => absurd hi (List.not_mem_nil i)⟩
  | cons i rest ih =>
    have hrest : ∀ j ∈ rest, b.cell j = ' ' → ∃ v, child (b.put j symbol) = some v ∧ P v :=
      fun j hj => hchild j (List.mem_cons_of_mem _ hj)
    by_cases hc : b.cell i = ' '
    · obtain ⟨v, hv, hPv⟩ := hchild i (List.mem_cons_self _ _) hc
      rw [plainMaxLoop_blank _ _ _ _ _ _ hc, hv]
      have hmv : max m v = m ∨ max m v = v := by
        rcases le_total m v with h | h
        · exact Or.inr (max_eq_right h)
        · exact Or.inl (max_eq_left h)
      obtain ⟨r, hr, h1, h2, _⟩ := ih hrest (max m v)
      refine ⟨r, hr, le_trans (le_max_left _ _) h1, ?_,
        fun _ => ⟨v, hPv, le_trans (le_max_right _ _) h1⟩⟩
      rcases h2 with h2 | h2
      · rcases hmv with h | h
        · exact Or.inl (h2.trans h)
        · exact Or.inr (by have e : r = v := h2.trans h; rw [e]; exact hPv)
      · exact Or.inr h2
    · rw [plainMaxLoop_occupied _ _ _ _ _ _ hc]
      obtain ⟨r, hr, h1, h2, h3⟩ := ih hrest m
      refine ⟨r, hr, h1, h2, ?_⟩
      rintro ⟨j, hj, hjc⟩
      apply h3
      rcases List.mem_cons.1 hj with rfl | hj2
      · exact absurd hjc hc
      · exact ⟨j, hj2, hjc⟩

theorem plainMinLoop_spec (child : Board → Option Int) (symbol : Char) (P : Int → Prop)
    (b : Board) (l : List (Fin 9))
    (hchild : ∀ i ∈ l, b.cell i = ' ' →
      ∃ v, child (b.put i (opponent symbol)) = some v ∧ P v)
    (m : Int) :
    ∃ r, plainMinLoop child symbol l b m = some r ∧ r ≤ m ∧ (r = m ∨ P r) ∧
      ((∃ i ∈ l, b.cell i = ' ') → ∃ v, P v ∧ r ≤ v) := by
  induction l generalizing m with
  | nil =>
    exact ⟨m, rfl, le_refl _, Or.inl rfl, fun ⟨i, hi, _⟩ => absurd hi (List.not_mem_nil i)⟩
  | cons i rest ih =>
    have hrest : ∀ j ∈ rest, b.cell j = ' ' →
        ∃ v, child (b.put j (opponent symbol)) = some v ∧ P v :=
      fun j hj => hchild j (List.mem_cons_of_mem _ hj)
    by_cases hc : b.cell i = ' '
    · obtain ⟨v, hv, hPv⟩ := hchild i (List.mem_cons_self _ _) hc
      rw [plainMinLoop_blank _ _ _ _ _ _ hc, hv]
      have hmv : min m v = m ∨ min m v = v := by
        rcases le_total m v with h | h
        · exact Or.inl (min_eq_left h)
        · exact Or.inr (min_eq_right h)
      obtain ⟨r, hr, h1, h2, _⟩ := ih hrest (min m v)
      refine ⟨r, hr, le_trans h1 (min_le_left _ _), ?_,
        fun _ => ⟨v, hPv, le_trans h1 (min_le_right _ _)⟩⟩
      rcases h2 with h2 | h2
      · rcases hmv with h | h
        · exact Or.inl (h2.trans h)
        · exact Or.inr (by have e : r = v := h2.trans h; rw [e]; exact hPv)
      · exact Or.inr h2
    · rw [plainMinLoop_occupied _ _ _ _ _ _ hc]
      obtain ⟨r, hr, h1, h2, h3⟩ := ih hrest m
      refine ⟨r, hr, h1, h2, ?_⟩
      rintro ⟨j, hj, hjc⟩
      apply h3
      rcases List.mem_cons.1 hj with rfl | hj2
      · exact absurd hjc hc
      · exact ⟨j, hj2, hjc⟩

/-- Plain minimax returns with fuel above the number of blank cells, and from a depth of at
least 0 with `depth + blanks` at most 1000 its value is at most `10 + depth + blanks` in
absolute value. -/
theorem plainMinimax_returns (symbol : Char) (hs : symbol ≠ ' ') (fuel : Nat) :
    ∀ (b : Board) (depth : Int) (mp : Bool), emptyCount b < fuel →
      ∃ p, plainMinimax symbol fuel b depth mp = some p ∧
        (0 ≤ depth → depth + emptyCount b ≤ 1000 →
          -(10 + depth + emptyCount b) ≤ p ∧ p ≤ 10 + depth + emptyCount b) := by
  induction fuel with
  | zero => intro b depth mp h; omega
  | succ n ih =>
    intro b depth mp hf
    simp only [plainMinimax]
    by_cases h1 : b.checkWin symbol = true
    · simp only [h1, if_true]
      exact ⟨_, rfl, fun _ _ => by unfold wrapInt32; omega⟩
    simp only [h1, if_false]
    by_cases h2 : b.checkWin (opponent symbol) = true
    · simp only [h2, if_true]
      exact ⟨_, rfl, fun _ _ => by unfold wrapInt32; omega⟩
    simp only [h2, if_false]
    by_cases h3 : b.isFull = true
    · simp only [h3, if_true]
      exact ⟨_, rfl, fun _ _ => by omega⟩
    simp only [h3, if_false]
    have hblank : ∃ i ∈ idx9, b.cell i = ' ' := by
      obtain ⟨i, hi⟩ := exists_blank_of_not_full b (by simpa using h3)
      exact ⟨i, mem_idx9 i, hi⟩
    let P : Int → Prop := fun v =>
      0 ≤ depth → depth + emptyCount b ≤ 1000 →
        -(10 + depth + emptyCount b) ≤ v ∧ v ≤ 10 + depth + emptyCount b
    have hkid : ∀ (mark : Char), mark ≠ ' ' → ∀ (flag : Bool), ∀ i ∈ idx9, b.cell i = ' ' →
        ∃ v, plainMinimax symbol n (b.put i mark) (wrapInt32 (depth + 1)) flag = some v ∧
          P v := by
      intro mark hm flag i _ hi
      have he := emptyCount_put b i mark hi hm
      obtain ⟨v, hv, hb⟩ := ih (b.put i mark) (wrapInt32 (depth + 1)) flag (by omega)
      refine ⟨v, hv, fun h0 h9 => ?_⟩
      have hwd : wrapInt32 (depth + 1) = depth + 1 := wrapInt32_of_fits _ (by omega) (by omega)
      rw [hwd] at hb
      have := hb (by omega) (by omega)
      omega
    cases mp with
    | true =>
      simp only [if_true]
      obtain ⟨r, hr, _, h5, h6⟩ := plainMaxLoop_spec
        (fun b2 => plainMinimax symbol n b2 (wrapInt32 (depth + 1)) false) symbol P b idx9
        (hkid symbol hs false) (-INT_MAX)
      refine ⟨r, hr, fun h0 h9 => ?_⟩
      obtain ⟨v, hPv, hvr⟩ := h6 hblank
      have hv := hPv h0 h9
      rcases h5 with h5 | h5
      · simp only [INT_MAX] at h5
        omega
      · exact h5 h0 h9
    | false =>
      simp only [Bool.false_eq_true, if_false]
      obtain ⟨r, hr, _, h5, h6⟩ := plainMinLoop_spec
        (fun b2 => plainMinimax symbol n b2 (wrapInt32 (depth + 1)) true) symbol P b idx9
        (hkid (opponent symbol) (opponent_ne_blank symbol) true) INT_MAX
      refine ⟨r, hr, fun h0 h9 => ?_⟩
      obtain ⟨v, hPv, hvr⟩ := h6 hblank
      have hv := hPv h0 h9
      rcases h5 with h5 | h5
      · simp only [INT_MAX] at h5
        omega
      · exact h5 h0 h9

/-- The maximizing loop against its plain form. The state `(m, pm, a)` of the two loops obeys:
either `alpha` has not been raised (`a = alpha0`) and the plain maximum is at most the pruned
one, or it has been raised and both maxima equal it. -/
theorem maxLoop_exact (child : Board → Int → Int → Option Int) (pchild : Board → Option Int)
    (symbol : Char) (b : Board) (alpha0 be : Int) (l : List (Fin 9))
    (hchild : ∀ i ∈ l, b.cell i = ' ' → ∀ a2, alpha0 ≤ a2 → a2 < be →
      ∃ v p, child (b.put i symbol) a2 be = some v ∧ pchild (b.put i symbol) = some p ∧
        WindowRel a2 be v p)
    (m pm a : Int) (hab : a < be)
    (hinv : (a = alpha0 ∧ pm ≤ m ∧ m ≤ a) ∨ (alpha0 < a ∧ m = a ∧ pm = a)) :
    ∃ r pr, maxLoop child symbol l b m a be = some r ∧
      plainMaxLoop pchild symbol l b pm = some pr ∧ WindowRel alpha0 be r pr := by
  induction l generalizing m pm a with
  | nil =>
    refine ⟨m, pm, rfl, rfl, ?_⟩
    unfold WindowRel
    omega
  | cons i rest ih =>
    have hrest : ∀ j ∈ rest, b.cell j = ' ' → ∀ a2, alpha0 ≤ a2 → a2 < be →
        ∃ v p, child (b.put j symbol) a2 be = some v ∧ pchild (b.put j symbol) = some p ∧
          WindowRel a2 be v p :=
      fun j hj => hchild j (List.mem_cons_of_mem _ hj)
    by_cases hc : b.cell i = ' '
    · obtain ⟨v, p, hv, hp, hrel⟩ := hchild i (List.mem_cons_self _ _) hc a (by omega) hab
      rw [maxLoop_blank _ _ _ _ _ _ _ _ hc, plainMaxLoop_blank _ _ _ _ _ _ hc, hv, hp]
      unfold WindowRel at hrel
      by_cases hcut : be ≤ max a (max m v)
      · simp only [hcut, if_true]
        obtain ⟨pr, hpr, hge, _, _⟩ := plainMaxLoop_spec pchild symbol (fun _ => True) b rest
          (fun j hj hjc => by
            obtain ⟨_, p2, _, hp2, _⟩ := hrest j hj hjc a (by omega) hab
            exact ⟨p2, hp2, trivial⟩) (max pm p)
        refine ⟨max m v, pr, rfl, hpr, ?_⟩
        unfold WindowRel
        omega
      · simp only [hcut, if_false]
        exact ih hrest (max m v) (max pm p) (max a (max m v)) (by omega) (by omega)
    · rw [maxLoop_occupied _ _ _ _ _ _ _ _ hc, plainMaxLoop_occupied _ _ _ _ _ _ hc]
      exact ih hrest m pm a hab hinv

/-- The minimizing loop against its plain form, mirror image of `maxLoop_exact`. -/
theorem minLoop_exact (child : Board → Int → Int → Option Int) (pchild : Board → Option Int)
    (symbol : Char) (b : Board) (a beta0 : Int) (l : List (Fin 9))
    (hchild : ∀ i ∈ l, b.cell i = ' ' → ∀ be2, be2 ≤ beta0 → a < be2 →
      ∃ v p, child (b.put i (opponent symbol)) a be2 = some v ∧
        pchild (b.put i (opponent symbol)) = some p ∧ WindowRel a be2 v p)
    (m pm be : Int) (hab : a < be)
    (hinv : (be = beta0 ∧ m ≤ pm ∧ be ≤ m) ∨ (be < beta0 ∧ m = be ∧ pm = be)) :
    ∃ r pr, minLoop child symbol l b m a be = some r ∧
      plainMinLoop pchild symbol l b pm = some pr ∧ WindowRel a beta0 r pr := by
  induction l generalizing m pm be with
  | nil =>
    refine ⟨m, pm, rfl, rfl, ?_⟩
    unfold WindowRel
    omega
  | cons i rest ih =>
    have hrest : ∀ j ∈ rest, b.cell j = ' ' → ∀ be2, be2 ≤ beta0 → a < be2 →
        ∃ v p, child (b.put j (opponent symbol)) a be2 = some v ∧
          pchild (b.put j (opponent symbol)) = some p ∧ WindowRel a be2 v p :=
      fun j hj => hchild j (List.mem_cons_of_mem _ hj)
    by_cases hc : b.cell i = ' '
    · obtain ⟨v, p, hv, hp, hrel⟩ := hchild i (List.mem_cons_self _ _) hc be (by omega) hab
      rw [minLoop_blank _ _ _ _ _ _ _ _ hc, plainMinLoop_blank _ _ _ _ _ _ hc, hv, hp]
      unfold WindowRel at hrel
      by_cases hcut : min be (min m v) ≤ a
      · simp only [hcut, if_true]
        obtain ⟨pr, hpr, hge, _, _⟩ := plainMinLoop_spec pchild symbol (fun _ => True) b rest
          (fun j hj hjc => by
            obtain ⟨_, p2, _, hp2, _⟩ := hrest j hj hjc be (by omega) hab
            exact ⟨p2, hp2, trivial⟩) (min pm p)
        refine ⟨min m v, pr, rfl, hpr, ?_⟩
        unfold WindowRel
        omega
      · simp only [hcut, if_false]
        exact ih hrest (min m v) (min pm p) (min be (min m v)) (by omega) (by omega)
    · rw [minLoop_occupied _ _ _ _ _ _ _ _ hc, plainMinLoop_occupied _ _ _ _ _ _ hc]
      exact ih hrest m pm be hab hinv

/-- The pruned search with a window inside `(-INT_MAX, INT_MAX)` against plain minimax. -/
theorem minimax_window (symbol : Char) (hs : symbol ≠ ' ') (fuel : Nat) :
    ∀ (b : Board) (depth : Int) (mp : Bool) (alpha beta : Int), emptyCount b < fuel →
      -INT_MAX ≤ alpha → alpha < beta → beta ≤ INT_MAX →
      ∃ v p, minimax symbol fuel b depth mp alpha beta = some v ∧
        plainMinimax symbol fuel b depth mp = some p ∧ WindowRel alpha beta v p := by
  induction fuel with
  | zero => intro b depth mp alpha beta h; omega
  | succ n ih =>
    intro b depth mp alpha beta hf hlo hab hhi
    simp only [minimax, plainMinimax]
    by_cases h1 : b.checkWin symbol = true
    · simp only [h1, if_true]
      exact ⟨_, _, rfl, rfl, by unfold WindowRel; omega⟩
    simp only [h1, if_false]
    by_cases h2 : b.checkWin (opponent symbol) = true
    · simp only [h2, if_true]
      exact ⟨_, _, rfl, rfl, by unfold WindowRel; omega⟩
    simp only [h2, if_false]
    by_cases h3 : b.isFull = true
    · simp only [h3, if_true]
      exact ⟨_, _, rfl, rfl, by unfold WindowRel; omega⟩
    simp only [h3, if_false]
    cases mp with
    | true =>
      simp only [if_true]
      apply maxLoop_exact _ _ symbol b alpha beta idx9 _ (-INT_MAX) (-INT_MAX) alpha hab
        (by omega)
      intro i _ hi a2 ha2 ha2b
      have he := emptyCount_put b i symbol hi hs
      exact ih (b.put i symbol) (wrapInt32 (depth + 1)) false a2 beta (by omega) (by omega) ha2b hhi
    | false =>
      simp only [Bool.false_eq_true, if_false]
      apply minLoop_exact _ _ symbol b alpha beta idx9 _ INT_MAX INT_MAX beta hab
        (by omega)
      intro i _ hi be2 hbe2 habe2
      have he := emptyCount_put b i (opponent symbol) hi (opponent_ne_blank symbol)
      exact ih (b.put i (opponent symbol)) (wrapInt32 (depth + 1)) true alpha be2 (by omega) hlo habe2
        (by omega)

/-- With the full window the pruned search returns, and returns the plain value. -/
theorem minimax_full_window (symbol : Char) (hs : symbol = 'X' ∨ symbol = 'O') (b : Board)
    (depth : Int) (h0 : 0 ≤ depth) (h9 : depth ≤ 9) (mp : Bool) (fuel : Nat)
    (hf : emptyCount b < fuel) :
    (minimax symbol fuel b depth mp (-INT_MAX) INT_MAX).isSome = true ∧
    minimax symbol fuel b depth mp (-INT_MAX) INT_MAX = plainMinimax symbol fuel b depth mp := by
  have hsb := symbol_ne_blank symbol hs
  obtain ⟨v, p, hv, hp, hrel⟩ := minimax_window symbol hsb fuel b depth mp (-INT_MAX) INT_MAX hf
    (le_refl _) (by simp only [INT_MAX]; omega) (le_refl _)
  obtain ⟨p2, hp2, hb⟩ := plainMinimax_returns symbol hsb fuel b depth mp hf
  rw [hp] at hp2
  have hpp : p = p2 := by simpa using hp2
  subst hpp
  have he := emptyCount_le b
  have hbound := hb h0 (by omega)
  unfold WindowRel at hrel
  simp only [INT_MAX] at hrel
  have hvp : v = p := by omega
  rw [hv, hp, hvp]
  exact ⟨rfl, rfl⟩

/-- C5: pruning does not change the root value: for every board, robot mark X or O, depth
in 0..9 and both values of the flag, `minimax(board, d, flag, -INT_MAX, INT_MAX)` returns, and
returns the value of plain minimax. -/
theorem minimax_eq_plainMinimax (symbol : Char) (hs : symbol = 'X' ∨ symbol = 'O') (b : Board)
    (depth : Int) (h0 : 0 ≤ depth) (h9 : depth ≤ 9) (mp : Bool) (fuel : Nat)
    (hf : emptyCount b < fuel) :
    (minimax symbol fuel b depth mp (-INT_MAX) INT_MAX).isSome = true ∧
    minimax symbol fuel b depth mp (-INT_MAX) INT_MAX = plainMinimax symbol fuel b depth mp :=
  minimax_full_window symbol hs b depth h0 h9 mp fuel hf

theorem minimax_eq_plainMinimax_witness :
    (minimax 'X' 10 boardXXOO 0 true (-INT_MAX) INT_MAX).isSome = true ∧
    minimax 'X' 10 boardXXOO 0 true (-INT_MAX) INT_MAX = plainMinimax 'X' 10 boardXXOO 0 true :=
  minimax_eq_plainMinimax 'X' (Or.inl rfl) boardXXOO 0 (by decide) (by decide) true 10
    (by decide)

/-! ## Certificates -/

set_option maxRecDepth 1000000 in
theorem certEmptyLower_ok : certLower 'X' 0 10 Board.empty 0 certEmptyLower = some [] := by
  decide!

set_option maxRecDepth 1000000 in
theorem certEmptyUpper_ok : certUpper 'X' 0 10 Board.empty 0 certEmptyUpper = some [] := by
  decide!

set_option maxRecDepth 1000000 in
theorem certCornerLower_O : certLower 'O' 0 10 boardCornerX 0 certCornerLower = some [] := by
  decide!

set_option maxRecDepth 1000000 in
theorem certCornerUpper_O : certUpper 'O' 0 10 boardCornerX 0 certCornerUpper = some [] := by
  decide!

set_option maxRecDepth 1000000 in
theorem certCornerLower_X : certLower 'X' 0 10 boardCornerO 0 certCornerLower = some [] := by
  decide!

set_option maxRecDepth 1000000 in
theorem certCornerUpper_X : certUpper 'X' 0 10 boardCornerO 0 certCornerUpper = some [] := by
  decide!

theorem plainMinimax_succ (symbol : Char) (m : Nat) (b : Board) (depth : Int) (mp : Bool) :
    plainMinimax symbol (m + 1) b depth mp =
      match terminalValue? symbol b depth with
      | some t => some t
      | none =>
        if mp then
          plainMaxLoop (fun b2 => plainMinimax symbol m b2 (wrapInt32 (depth + 1)) false) symbol idx9 b
            (-INT_MAX)
        else
          plainMinLoop (fun b2 => plainMinimax symbol m b2 (wrapInt32 (depth + 1)) true) symbol idx9 b
            INT_MAX := by
  cases h1 : b.checkWin symbol <;> cases h2 : b.checkWin (opponent symbol) <;>
    cases h3 : b.isFull <;> simp [plainMinimax, terminalValue?, h1, h2, h3]

theorem plainMaxLoop_ge_child (child : Board → Option Int) (symbol : Char) (b : Board)
    (l : List (Fin 9))
    (htot : ∀ i ∈ l, b.cell i = ' ' → ∃ v, child (b.put i symbol) = some v)
    (j : Fin 9) (hj : j ∈ l) (hjc : b.cell j = ' ') (q : Int)
    (hq : child (b.put j symbol) = some q) (m : Int) :
    ∃ r, plainMaxLoop child symbol l b m = some r ∧ q ≤ r := by
  induction l generalizing m with
  | nil => exact absurd hj (List.not_mem_nil j)
  | cons i rest ih =>
    have hrest : ∀ k ∈ rest, b.cell k = ' ' → ∃ v, child (b.put k symbol) = some v :=
      fun k hk => htot k (List.mem_cons_of_mem _ hk)
    by_cases hc : b.cell i = ' '
    · obtain ⟨v, hv⟩ := htot i (List.mem_cons_self _ _) hc
      rw [plainMaxLoop_blank _ _ _ _ _ _ hc, hv]
      rcases List.mem_cons.1 hj with rfl | hj2
      · rw [hv] at hq
        have e : v = q := by simpa using hq
        obtain ⟨r, hr, hge, _, _⟩ := plainMaxLoop_spec child symbol (fun _ => True) b rest
          (fun k hk hkc => by
            obtain ⟨w, hw⟩ := hrest k hk hkc
            exact ⟨w, hw, trivial⟩) (max m v)
        exact ⟨r, hr, by omega⟩
      · exact ih hrest hj2 (max m v)
    · rw [plainMaxLoop_occupied _ _ _ _ _ _ hc]
      rcases List.mem_cons.1 hj with rfl | hj2
      · exact absurd hjc hc
      · exact ih hrest hj2 m

theorem plainMinLoop_le_child (child : Board → Option Int) (symbol : Char) (b : Board)
    (l : List (Fin 9))
    (htot : ∀ i ∈ l, b.cell i = ' ' → ∃ v, child (b.put i (opponent symbol)) = some v)
    (j : Fin 9) (hj : j ∈ l) (hjc : b.cell j = ' ') (q : Int)
    (hq : child (b.put j (opponent symbol)) = some q) (m : Int) :
    ∃ r, plainMinLoop child symbol l b m = some r ∧ r ≤ q := by
  induction l generalizing m with
  | nil => exact absurd hj (List.not_mem_nil j)
  | cons i rest ih =>
    have hrest : ∀ k ∈ rest, b.cell k = ' ' →
        ∃ v, child (b.put k (opponent symbol)) = some v :=
      fun k hk => htot k (List.mem_cons_of_mem _ hk)
    by_cases hc : b.cell i = ' '
    · obtain ⟨v, hv⟩ := htot i (List.mem_cons_self _ _) hc
      rw [plainMinLoop_blank _ _ _ _ _ _ hc, hv]
      rcases List.mem_cons.1 hj with rfl | hj2
      · rw [hv] at hq
        have e : v = q := by simpa using hq
        obtain ⟨r, hr, hge, _, _⟩ := plainMinLoop_spec child symbol (fun _ => True) b rest
          (fun k hk hkc => by
            obtain ⟨w, hw⟩ := hrest k hk hkc
            exact ⟨w, hw, trivial⟩) (min m v)
        exact ⟨r, hr, by omega⟩
      · exact ih hrest hj2 (min m v)
    · rw [plainMinLoop_occupied _ _ _ _ _ _ hc]
      rcases List.mem_cons.1 hj with rfl | hj2
      · exact absurd hjc hc
      · exact ih hrest hj2 m

theorem certAll_sound (next : Board → List (Fin 9) → Option (List (Fin 9))) (mark : Char)
    (l : List (Fin 9)) (b : Board) (cert rest : List (Fin 9))
    (h : certAll next mark l b cert = some rest) (j : Fin 9) (hj : j ∈ l)
    (hjc : b.cell j = ' ') : ∃ c c2, next (b.put j mark) c = some c2 := by
  induction l generalizing cert with
  | nil => exact absurd hj (List.not_mem_nil j)
  | cons i tl ih =>
    by_cases hc : b.cell i = ' '
    · simp only [certAll, hc, beq_self_eq_true, if_true] at h
      cases hn : next (b.put i mark) cert with
      | none => rw [hn] at h; exact absurd h (by simp)
      | some c1 =>
        rw [hn] at h
        rcases List.mem_cons.1 hj with rfl | hj2
        · exact ⟨cert, c1, hn⟩
        · exact ih c1 h hj2
    · have hc2 : (b.cell i == ' ') = false := by simpa using hc
      simp only [certAll, hc2, Bool.false_eq_true, if_false] at h
      rcases List.mem_cons.1 hj with rfl | hj2
      · exact absurd hjc hc
      · exact ih cert h hj2

theorem plain_children_return (symbol : Char) (hs : symbol ≠ ' ') (mark : Char)
    (hm : mark ≠ ' ') (b : Board) (m : Nat) (hf : emptyCount b < m + 1) (depth : Int)
    (flag : Bool) (i : Fin 9) (hi : b.cell i = ' ') :
    ∃ v, plainMinimax symbol m (b.put i mark) depth flag = some v := by
  have he := emptyCount_put b i mark hi hm
  obtain ⟨v, hv, _⟩ := plainMinimax_returns symbol hs m (b.put i mark) depth flag (by omega)
  exact ⟨v, hv⟩

theorem certLower_sound (symbol : Char) (hs : symbol ≠ ' ') (bound : Int)
    (hb : bound ≤ INT_MAX) (n : Nat) :
    ∀ (b : Board) (depth : Int) (cert rest : List (Fin 9)),
      certLower symbol bound n b depth cert = some rest →
      ∀ m, emptyCount b < m →
        ∃ p, plainMinimax symbol m b depth true = some p ∧ bound ≤ p := by
  induction n with
  | zero => intro b depth cert rest h; simp [certLower] at h
  | succ n ih =>
    intro b depth cert rest h m hm
    obtain ⟨m1, rfl⟩ : ∃ m1, m = m1 + 1 := ⟨m - 1, by omega⟩
    rw [plainMinimax_succ]
    simp only [certLower] at h
    cases ht : terminalValue? symbol b depth with
    | some t =>
      rw [ht] at h
      simp only at h
      by_cases hle : bound ≤ t
      · exact ⟨t, rfl, hle⟩
      · simp [hle] at h
    | none =>
      rw [ht] at h
      simp only [if_true]
      cases cert with
      | nil => simp at h
      | cons mv c =>
        simp only at h
        by_cases hmv : b.cell mv = ' '
        · simp only [hmv, beq_self_eq_true, if_true] at h
          have he := emptyCount_put b mv symbol hmv hs
          have hq : ∃ q, plainMinimax symbol m1 (b.put mv symbol) (wrapInt32 (depth + 1)) false = some q ∧
              bound ≤ q := by
            obtain ⟨m2, rfl⟩ : ∃ m2, m1 = m2 + 1 := ⟨m1 - 1, by omega⟩
            rw [plainMinimax_succ]
            cases ht1 : terminalValue? symbol (b.put mv symbol) (wrapInt32 (depth + 1)) with
            | some t =>
              rw [ht1] at h
              simp only at h
              by_cases hle : bound ≤ t
              · exact ⟨t, rfl, hle⟩
              · simp [hle] at h
            | none =>
              rw [ht1] at h
              simp only [Bool.false_eq_true, if_false] at h ⊢
              obtain ⟨r, hr, _, h5, _⟩ := plainMinLoop_spec
                (fun b2 => plainMinimax symbol m2 b2 (wrapInt32 (wrapInt32 (depth + 1) + 1)) true) symbol
                (fun v => bound ≤ v) (b.put mv symbol) idx9
                (fun j hj hjc => by
                  obtain ⟨c1, c2, hc⟩ := certAll_sound _ _ _ _ _ _ h j hj hjc
                  have hej := emptyCount_put (b.put mv symbol) j (opponent symbol) hjc
                    (opponent_ne_blank symbol)
                  exact ih _ _ _ _ hc m2 (by omega)) INT_MAX
              refine ⟨r, hr, ?_⟩
              rcases h5 with h5 | h5
              · rw [h5]; exact hb
              · exact h5
          obtain ⟨q, hq1, hq2⟩ := hq
          obtain ⟨r, hr, hqr⟩ := plainMaxLoop_ge_child
            (fun b2 => plainMinimax symbol m1 b2 (wrapInt32 (depth + 1)) false) symbol b idx9
            (fun i _ hi => plain_children_return symbol hs symbol hs b m1 hm _ _ i hi)
            mv (mem_idx9 mv) hmv q hq1 (-INT_MAX)
          exact ⟨r, hr, le_trans hq2 hqr⟩
        · simp [hmv] at h

theorem certUpper_sound (symbol : Char) (hs : symbol ≠ ' ') (bound : Int)
    (hb : -INT_MAX ≤ bound) (n : Nat) :
    ∀ (b : Board) (depth : Int) (cert rest : List (Fin 9)),
      certUpper symbol bound n b depth cert = some rest →
      ∀ m, emptyCount b < m →
        ∃ p, plainMinimax symbol m b depth true = some p ∧ p ≤ bound := by
  induction n with
  | zero => intro b depth cert rest h; simp [certUpper] at h
  | succ n ih =>
    intro b depth cert rest h m hm
    obtain ⟨m1, rfl⟩ : ∃ m1, m = m1 + 1 := ⟨m - 1, by omega⟩
    rw [plainMinimax_succ]
    simp only [certUpper] at h
    cases ht : terminalValue? symbol b depth with
    | some t =>
      rw [ht] at h
      simp only at h
      by_cases hle : t ≤ bound
      · exact ⟨t, rfl, hle⟩
      · simp [hle] at h
    | none =>
      rw [ht] at h
      simp only [if_true] at h ⊢
      obtain ⟨r, hr, _, h5, _⟩ := plainMaxLoop_spec
        (fun b2 => plainMinimax symbol m1 b2 (wrapInt32 (depth + 1)) false) symbol
        (fun v => v ≤ bound) b idx9
        (fun i hi hic => by
          have he := emptyCount_put b i symbol hic hs
          obtain ⟨c1, c2, hc⟩ := certAll_sound _ _ _ _ _ _ h i hi hic
          obtain ⟨m2, rfl⟩ : ∃ m2, m1 = m2 + 1 := ⟨m1 - 1, by omega⟩
          show ∃ v, plainMinimax symbol (m2 + 1) (b.put i symbol) (wrapInt32 (depth + 1)) false = some v ∧
            v ≤ bound
          rw [plainMinimax_succ]
          cases ht1 : terminalValue? symbol (b.put i symbol) (wrapInt32 (depth + 1)) with
          | some t =>
            rw [ht1] at hc
            simp only at hc
            by_cases hle : t ≤ bound
            · exact ⟨t, rfl, hle⟩
            · simp [hle] at hc
          | none =>
            rw [ht1] at hc
            simp only [Bool.false_eq_true, if_false] at hc ⊢
            cases c1 with
            | nil => simp at hc
            | cons j c =>
              simp only at hc
              by_cases hj : (b.put i symbol).cell j = ' '
              · simp only [hj, beq_self_eq_true, if_true] at hc
                have hej := emptyCount_put (b.put i symbol) j (opponent symbol) hj
                  (opponent_ne_blank symbol)
                obtain ⟨q, hq1, hq2⟩ := ih _ _ _ _ hc m2 (by omega)
                obtain ⟨r, hr, hrq⟩ := plainMinLoop_le_child
                  (fun b2 => plainMinimax symbol m2 b2 (wrapInt32 (wrapInt32 (depth + 1) + 1)) true) symbol
                  (b.put i symbol) idx9
                  (fun k _ hk => plain_children_return symbol hs (opponent symbol)
                    (opponent_ne_blank symbol) (b.put i symbol) m2 (by omega) _ _ k hk)
                  j (mem_idx9 j) hj q hq1 INT_MAX
                exact ⟨r, hr, le_trans hrq hq2⟩
              · simp [hj] at hc) (-INT_MAX)
      refine ⟨r, hr, ?_⟩
      rcases h5 with h5 | h5
      · rw [h5]; exact hb
      · exact h5

/-- A position with a lower and an upper certificate for 0 has `minimax` value 0. -/
theorem minimax_zero_of_certs (symbol : Char) (hs : symbol = 'X' ∨ symbol = 'O') (b : Board)
    (cl cu r1 r2 : List (Fin 9)) (n1 n2 : Nat)
    (h1 : certLower symbol 0 n1 b 0 cl = some r1) (h2 : certUpper symbol 0 n2 b 0 cu = some r2)
    (fuel : Nat) (hf : emptyCount b < fuel) :
    minimax symbol fuel b 0 true (-INT_MAX) INT_MAX = some 0 := by
  have hsb := symbol_ne_blank symbol hs
  obtain ⟨p, hp, hlo⟩ := certLower_sound symbol hsb 0 (by simp only [INT_MAX]; omega) n1 b 0 cl
    r1 h1 fuel hf
  obtain ⟨p2, hp2, hhi⟩ := certUpper_sound symbol hsb 0 (by simp only [INT_MAX]; omega) n2 b 0
    cu r2 h2 fuel hf
  rw [hp] at hp2
  have e : p = p2 := by simpa using hp2
  subst e
  have hz : p = 0 := by omega
  rw [(minimax_full_window symbol hs b 0 (le_refl 0) (by omega) true fuel hf).2, hp, hz]

/-! ## The empty board and the HARD robots -/

theorem emptyCount_empty : emptyCount Board.empty = 9 := by decide

theorem emptyCount_corner : emptyCount boardCornerX = 8 ∧ emptyCount boardCornerO = 8 := by
  decide

theorem minimax_empty (fuel : Nat) (hf : 9 < fuel) :
    minimax 'X' fuel Board.empty 0 true (-INT_MAX) INT_MAX = some 0 :=
  minimax_zero_of_certs 'X' (Or.inl rfl) Board.empty _ _ _ _ _ _ certEmptyLower_ok
    certEmptyUpper_ok fuel (by rw [emptyCount_empty]; exact hf)

theorem minimax_cornerX (fuel : Nat) (hf : 8 < fuel) :
    minimax 'O' fuel boardCornerX 0 true (-INT_MAX) INT_MAX = some 0 :=
  minimax_zero_of_certs 'O' (Or.inr rfl) boardCornerX _ _ _ _ _ _ certCornerLower_O
    certCornerUpper_O fuel (by rw [emptyCount_corner.1]; exact hf)

theorem minimax_cornerO (fuel : Nat) (hf : 8 < fuel) :
    minimax 'X' fuel boardCornerO 0 true (-INT_MAX) INT_MAX = some 0 :=
  minimax_zero_of_certs 'X' (Or.inl rfl) boardCornerO _ _ _ _ _ _ certCornerLower_X
    certCornerUpper_X fuel (by rw [emptyCount_corner.2]; exact hf)

theorem put_put_same (b : Board) (i : Fin 9) (v w : Char) : (b.put i v).put i w = b.put i w := by
  apply Board.ext_cell
  intro j
  by_cases hj : j = i
  · subst hj
    rw [cell_put_same, cell_put_same]
  · rw [cell_put_ne _ _ _ _ hj, cell_put_ne _ _ _ _ hj, cell_put_ne _ _ _ _ hj]

theorem write_zero (b : Board) (v : Char) :
    b.write? ((0 : Int).tdiv 3) ((0 : Int).tmod 3) v = some (b.put 0 v) := by
  have := write_index b 0 v
  simpa using this

theorem play_step (player1 player2 : Board → Option Int) (n : Nat) (b b1 : Board)
    (currentPlayer move : Int)
    (hc : (!b.isFull && !b.checkWin 'X' && !b.checkWin 'O') = true)
    (hm : (if currentPlayer = 0 then player1 else player2) b = some move)
    (hw : b.write? (move.tdiv 3) (move.tmod 3) (if currentPlayer = 0 then 'X' else 'O') =
      some b1) :
    play player1 player2 (n + 1) b currentPlayer = play player1 player2 n b1 (1 - currentPlayer) := by
  simp only [play, hc, if_true, hm, hw]

theorem hard_cycle (rng1 rng2 : Nat → Fin 9) (n : Nat) :
    play (fun b => Robot.makeMove ⟨'X', Difficulty.HARD, rng1⟩ 10 b)
        (fun b => Robot.makeMove ⟨'O', Difficulty.HARD, rng2⟩ 10 b) n boardCornerX 1 =
      PlayResult.outOfFuel ∧
    play (fun b => Robot.makeMove ⟨'X', Difficulty.HARD, rng1⟩ 10 b)
        (fun b => Robot.makeMove ⟨'O', Difficulty.HARD, rng2⟩ 10 b) n boardCornerO 0 =
      PlayResult.outOfFuel := by
  induction n with
  | zero => exact ⟨rfl, rfl⟩
  | succ n ih =>
    constructor
    · rw [play_step _ _ n boardCornerX boardCornerO 1 0 (by decide)
        (by simp [Robot.makeMove, minimax_cornerX])
        (by
          simp only [show ¬ ((1 : Int) = 0) by decide, if_false]
          rw [write_zero]
          simp only [boardCornerX, boardCornerO, put_put_same])]
      exact ih.2
    · rw [play_step _ _ n boardCornerO boardCornerX 0 0 (by decide)
        (by simp [Robot.makeMove, minimax_cornerO])
        (by
          simp only [if_true]
          rw [write_zero]
          simp only [boardCornerX, boardCornerO, put_put_same])]
      exact ih.1

/-- C3: the loop of `Game::play` with two HARD robots from the empty board does not finish,
whatever the number of iterations: the X robot returns the score 0, X is written to cell 0,
the O robot returns 0 and overwrites the cell with O, and the two boards alternate. -/
theorem hard_vs_hard_never_ends (rng1 rng2 : Nat → Fin 9) (fuel : Nat) :
    play (fun b => Robot.makeMove ⟨'X', Difficulty.HARD, rng1⟩ 10 b)
        (fun b => Robot.makeMove ⟨'O', Difficulty.HARD, rng2⟩ 10 b) fuel Board.empty 0 =
      PlayResult.outOfFuel := by
  cases fuel with
  | zero => rfl
  | succ n =>
    rw [play_step _ _ n Board.empty boardCornerX 0 0 (by decide)
      (by simp [Robot.makeMove, minimax_empty])
      (by
        simp only [if_true]
        rw [write_zero]
        rfl)]
    exact (hard_cycle rng1 rng2 n).1

/-- C4: for the robot with mark X, `minimax(emptyBoard, 0, true, -INT_MAX, INT_MAX)` returns 0
(with any nesting allowance of at least ten calls). -/
theorem minimax_empty_board_is_zero (k : Nat) :
    minimax 'X' (k + 10) Board.empty 0 true (-INT_MAX) INT_MAX = some 0 :=
  minimax_empty (k + 10) (by omega)

end TicTacToe
